import Mathlib

/-!
tinydtls `crypto.c`: a shallow embedding and its verified properties.

Byte buffers are lists of natural numbers (each a byte value), a pointer that
may be `NULL` is an `Option`, and the effect of a C function on a caller's
buffer is the returned, updated buffer.  The keyed hash, the block cipher and
the AEAD transform live outside `crypto.c`; they enter as parameters.  Machine
integers are unbounded integers with the conversions to `int` and `size_t`
written out where the code converts.
-/

namespace TinyDtls

/-! ## Buffers -/

/-- The effect of `memset(buf + off, v, n)` on the buffer `buf`; the region
written is taken to lie inside the buffer, as C requires. -/
def memset (buf : List Nat) (off v n : Nat) : List Nat :=
  buf.take off ++ List.replicate n v ++ buf.drop (off + n)

/-- The effect of `memcpy(buf + off, src, n)` on the buffer `buf`, also that of
`memmove`, whose source is read before anything is written; `src` has at least
`n` bytes and the region written lies inside the buffer, as C requires. -/
def memcpy (buf : List Nat) (off : Nat) (src : List Nat) (n : Nat) : List Nat :=
  buf.take off ++ src.take n ++ buf.drop (off + n)

/-! ## The keyed hash capability -/

/-- Modelled from the spec: the HMAC context of `hmac.h` (absent from the
sources), a keyed hash with `init(key)`, `update(data)` and
`finalize() -> digest`.  The context remembers the key and the bytes fed so
far. -/
structure dtls_hmac_context_t where
  key : List Nat
  fed : List Nat
deriving DecidableEq, Repr

/-- Modelled from the spec: `dtls_hmac_init(ctx, key, klen)` starts a fresh
computation under the first `klen` bytes of `key`. -/
def dtls_hmac_init (key : List Nat) (klen : Nat) : dtls_hmac_context_t :=
  { key := key.take klen, fed := [] }

/-- Modelled from the spec: `dtls_hmac_update(ctx, input, ilen)` feeds the
first `ilen` bytes of `input`. -/
def dtls_hmac_update (ctx : dtls_hmac_context_t) (input : List Nat) (ilen : Nat) :
    dtls_hmac_context_t :=
  { ctx with fed := ctx.fed ++ input.take ilen }

/-- Modelled from the spec: `dtls_hmac_finalize(ctx, result)` writes the digest
of everything fed under the key and returns the digest length.  `H key msg` is
the HMAC function itself. -/
def dtls_hmac_finalize (H : List Nat → List Nat → List Nat) (ctx : dtls_hmac_context_t) :
    List Nat × Nat :=
  (H ctx.key ctx.fed, (H ctx.key ctx.fed).length)

/-- The macro `HMAC_UPDATE_SEED(Context, Seed, Length)`:
`if (Seed) dtls_hmac_update(Context, (Seed), (Length))`. -/
def HMAC_UPDATE_SEED (ctx : dtls_hmac_context_t) (seed : Option (List Nat)) (length : Nat) :
    dtls_hmac_context_t :=
  match seed with
  | some s => dtls_hmac_update ctx s length
  | none => ctx

/-! ## `dtls_p_hash` and `dtls_prf` -/

/-- The `while (len < buflen)` loop of `dtls_p_hash`.  The state is `A`, `dlen`,
`len` and the output buffer; `fuel` bounds the number of iterations and `none`
means the bound was reached with the loop still running. -/
def dtls_p_hash_loop (H : List Nat → List Nat → List Nat)
    (key : List Nat) (keylen : Nat)
    (label : Option (List Nat)) (labellen : Nat)
    (random1 : Option (List Nat)) (random1len : Nat)
    (random2 : Option (List Nat)) (random2len : Nat)
    (buflen : Nat) :
    Nat → List Nat → Nat → Nat → List Nat → Option (List Nat)
  | 0, _, _, len, buf => if len < buflen then none else some buf
  | fuel + 1, A, dlen, len, buf =>
    if len < buflen then
      let hmac := dtls_hmac_init key keylen
      let hmac := dtls_hmac_update hmac A dlen
      let hmac := HMAC_UPDATE_SEED hmac label labellen
      let hmac := HMAC_UPDATE_SEED hmac random1 random1len
      let hmac := HMAC_UPDATE_SEED hmac random2 random2len
      let tmp := (dtls_hmac_finalize H hmac).1
      let dlen := (dtls_hmac_finalize H hmac).2
      if len + dlen < buflen then
        let buf := memcpy buf len tmp dlen
        let len := len + dlen
        -- calculate A(i+1)
        let hmac := dtls_hmac_init key keylen
        let hmac := dtls_hmac_update hmac A dlen
        let A := (dtls_hmac_finalize H hmac).1
        dtls_p_hash_loop H key keylen label labellen random1 random1len random2 random2len
          buflen fuel A dlen len buf
      else
        some (memcpy buf len tmp (buflen - len))
    else some buf

/-- The function `dtls_p_hash` (the hash selector `h` is ignored by the code).
Returns the value returned and the output buffer. -/
def dtls_p_hash (H : List Nat → List Nat → List Nat) (fuel : Nat)
    (key : List Nat) (keylen : Nat)
    (label : Option (List Nat)) (labellen : Nat)
    (random1 : Option (List Nat)) (random1len : Nat)
    (random2 : Option (List Nat)) (random2len : Nat)
    (buf : List Nat) (buflen : Nat) : Option (Nat × List Nat) :=
  let hmac := dtls_hmac_init key keylen
  -- calculate A(1) from A(0) == seed
  let hmac := HMAC_UPDATE_SEED hmac label labellen
  let hmac := HMAC_UPDATE_SEED hmac random1 random1len
  let hmac := HMAC_UPDATE_SEED hmac random2 random2len
  let A := (dtls_hmac_finalize H hmac).1
  let dlen := (dtls_hmac_finalize H hmac).2
  (dtls_p_hash_loop H key keylen label labellen random1 random1len random2 random2len
      buflen fuel A dlen 0 buf).map (fun out => (buflen, out))

/-- The function `dtls_prf`: clear the result buffer, then `dtls_p_hash`. -/
def dtls_prf (H : List Nat → List Nat → List Nat) (fuel : Nat)
    (key : List Nat) (keylen : Nat)
    (label : Option (List Nat)) (labellen : Nat)
    (random1 : Option (List Nat)) (random1len : Nat)
    (random2 : Option (List Nat)) (random2len : Nat)
    (buf : List Nat) (buflen : Nat) : Option (Nat × List Nat) :=
  dtls_p_hash H fuel key keylen label labellen random1 random1len random2 random2len
    (memset buf 0 0 buflen) buflen

/-! ### The reference construction, in the words of the specification -/

/-- One optional part of the seed: absent parts contribute nothing. -/
def seed_part (p : Option (List Nat)) (n : Nat) : List Nat :=
  match p with
  | some s => s.take n
  | none => []

/-- The seed, `label ‖ random1 ‖ random2`. -/
def prf_seed (label : Option (List Nat)) (labellen : Nat)
    (random1 : Option (List Nat)) (random1len : Nat)
    (random2 : Option (List Nat)) (random2len : Nat) : List Nat :=
  seed_part label labellen ++ seed_part random1 random1len ++ seed_part random2 random2len

/-- The chain `A(0) = seed`, `A(i) = HMAC(key, A(i-1))`. -/
def prf_A (H : List Nat → List Nat → List Nat) (key seed : List Nat) : Nat → List Nat
  | 0 => seed
  | i + 1 => H key (prf_A H key seed i)

/-- The output block `chunk(i) = HMAC(key, A(i) ‖ seed)`. -/
def prf_chunk (H : List Nat → List Nat → List Nat) (key seed : List Nat) (i : Nat) : List Nat :=
  H key (prf_A H key seed i ++ seed)

/-- The concatenation `chunk(1) ‖ chunk(2) ‖ ... ‖ chunk(n)`. -/
def prf_chunks (H : List Nat → List Nat → List Nat) (key seed : List Nat) (n : Nat) : List Nat :=
  (List.range n).flatMap (fun i => prf_chunk H key seed (i + 1))

/-- The blocks `chunk(j+1) ‖ ... ‖ chunk(j+n)`. -/
def prf_tail (H : List Nat → List Nat → List Nat) (key seed : List Nat) : Nat → Nat → List Nat
  | _, 0 => []
  | j, n + 1 => prf_chunk H key seed (j + 1) ++ prf_tail H key seed (j + 1) n

/-- A toy keyed hash with a two-byte digest, used to run the definitions. -/
def toyH (key msg : List Nat) : List Nat :=
  [(key.sum + 3 * msg.sum + msg.length) % 256, (7 * key.sum + msg.sum + 1) % 256]

/-! ## `dtls_mac` -/

/-- Modelled from the spec: the macro `dtls_int_to_uint16(Field, Value)` of
`numeric.h` (absent from the sources) stores `Value` as a 16-bit big-endian
field: the high byte, then the low byte, each masked to 8 bits. -/
def dtls_int_to_uint16 (value : Nat) : List Nat :=
  [(value / 256) % 256, value % 256]

/-- The function `dtls_mac`: feeds the record header fields, the length and the
packet to the HMAC context, then finalises into `buf`.  Returns the context
after the updates and the buffer holding the tag. -/
def dtls_mac (H : List Nat → List Nat → List Nat) (hmac_ctx : dtls_hmac_context_t)
    (record packet : List Nat) (length : Nat) (buf : List Nat) :
    dtls_hmac_context_t × List Nat :=
  let L := dtls_int_to_uint16 length
  let hmac_ctx := dtls_hmac_update hmac_ctx (record.drop 3) (2 + 6)
  let hmac_ctx := dtls_hmac_update hmac_ctx record (1 + 2)
  let hmac_ctx := dtls_hmac_update hmac_ctx L 2
  let hmac_ctx := dtls_hmac_update hmac_ctx packet length
  let tag := dtls_hmac_finalize H hmac_ctx
  (hmac_ctx, memcpy buf 0 tag.1 tag.2)

/-- The bytes `xs[a..b)`, read one index at a time. -/
def sub_bytes (xs : List Nat) (a b : Nat) : List Nat :=
  (List.range (b - a)).map (fun i => xs.getD (a + i) 0)

/-! ## The AEAD cipher gate -/

/-- Conversion of an integer value to C `int` (32 bits, two's complement). -/
def to_int (n : Int) : Int :=
  (n + 2147483648) % 4294967296 - 2147483648

/-- Conversion of an integer value to `size_t` (64 bits). -/
def to_size_t (n : Int) : Int :=
  n % 18446744073709551616

/-- Modelled from the spec: `dtls_ccm_params_t` of `crypto.h` (absent from the
sources), the parameters {nonce, tag length M, length-field size L}. -/
structure dtls_ccm_params_t where
  nonce : List Nat
  tag_length : Nat
  l : Nat
deriving DecidableEq, Repr

/-- Modelled from the spec: `aes128_ccm_t` of `crypto.h` (absent from the
sources), the cipher context: key schedule, tag length and length-field size.
The key schedule `rijndael_ctx` is kept as the list of its words. -/
structure aes128_ccm_t where
  ctx : List Nat
  tag_length : Nat
  l : Nat
deriving DecidableEq, Repr

/-- What happened to the mutex and to the cipher context, in order.  An access
to the context records whether the mutex was held at that moment. -/
inductive cipher_event where
  | mutex_lock
  | mutex_unlock
  | write_tag_length (held : Bool)
  | write_l (held : Bool)
  | write_key_schedule (held : Bool)
  | aead_encrypt (held : Bool)
  | aead_decrypt (held : Bool)
deriving DecidableEq, Repr

/-- The static variables `cipher_context` and `cipher_context_mutex`, with the
log of events. -/
structure cipher_state where
  cipher_context_mutex : Bool
  cipher_context : aes128_ccm_t
  log : List cipher_event
deriving DecidableEq, Repr

/-- The block cipher key setup and the AEAD transform, supplied from outside
`crypto.c`.  `rijndael_set_key_enc_only ctx key bits` returns the result code
and the key schedule it leaves; the two transforms take the key schedule, M, L,
the nonce, the message buffer, the message length, the associated data and its
length, and return their `long` result and the message buffer they leave. -/
structure cipher_primitives where
  rijndael_set_key_enc_only : List Nat → List Nat → Int → Int × List Nat
  dtls_ccm_encrypt_message :
    List Nat → Nat → Nat → List Nat → List Nat → Nat → List Nat → Nat → Int × List Nat
  dtls_ccm_decrypt_message :
    List Nat → Nat → Nat → List Nat → List Nat → Nat → List Nat → Nat → Int × List Nat

/-- Modelled from the spec: `dtls_mutex_lock` of `dtls_mutex.h` (absent from
the sources).  Acquisition blocks until the mutex is released; in a sequential
run a call on a held mutex never returns, which is `none`. -/
def dtls_mutex_lock (st : cipher_state) : Option cipher_state :=
  if st.cipher_context_mutex then none
  else some { st with cipher_context_mutex := true, log := st.log ++ [cipher_event.mutex_lock] }

/-- Modelled from the spec: `dtls_mutex_unlock` of `dtls_mutex.h` (absent from
the sources) releases the mutex. -/
def dtls_mutex_unlock (st : cipher_state) : cipher_state :=
  { st with cipher_context_mutex := false, log := st.log ++ [cipher_event.mutex_unlock] }

/-- The function `dtls_cipher_context_get`: lock, then hand out the context. -/
def dtls_cipher_context_get (st : cipher_state) : Option cipher_state :=
  dtls_mutex_lock st

/-- The function `dtls_cipher_context_release`. -/
def dtls_cipher_context_release (st : cipher_state) : cipher_state :=
  dtls_mutex_unlock st

/-- The assignment `ctx->data.tag_length = v`. -/
def set_tag_length (st : cipher_state) (v : Nat) : cipher_state :=
  { st with cipher_context := { st.cipher_context with tag_length := v },
            log := st.log ++ [cipher_event.write_tag_length st.cipher_context_mutex] }

/-- The assignment `ctx->data.l = v`. -/
def set_l (st : cipher_state) (v : Nat) : cipher_state :=
  { st with cipher_context := { st.cipher_context with l := v },
            log := st.log ++ [cipher_event.write_l st.cipher_context_mutex] }

/-- The call `rijndael_set_key_enc_only(&ctx->data.ctx, key, bits)` on the
shared context. -/
def set_key (P : cipher_primitives) (st : cipher_state) (key : List Nat) (bits : Int) :
    Int × cipher_state :=
  let r := P.rijndael_set_key_enc_only st.cipher_context.ctx key bits
  (r.1, { st with cipher_context := { st.cipher_context with ctx := r.2 },
                  log := st.log ++ [cipher_event.write_key_schedule st.cipher_context_mutex] })

/-- The static function `dtls_ccm_encrypt`: the AEAD encryption of `buf` in
place, with M and L read from the context; the `long` result is returned as
`size_t`. -/
def dtls_ccm_encrypt (P : cipher_primitives) (st : cipher_state) (srclen : Nat)
    (buf nonce aad : List Nat) (la : Nat) : Int × List Nat × cipher_state :=
  let r := P.dtls_ccm_encrypt_message st.cipher_context.ctx st.cipher_context.tag_length
    st.cipher_context.l nonce buf srclen aad la
  (to_size_t r.1, r.2,
    { st with log := st.log ++ [cipher_event.aead_encrypt st.cipher_context_mutex] })

/-- The static function `dtls_ccm_decrypt`. -/
def dtls_ccm_decrypt (P : cipher_primitives) (st : cipher_state) (srclen : Nat)
    (buf nonce aad : List Nat) (la : Nat) : Int × List Nat × cipher_state :=
  let r := P.dtls_ccm_decrypt_message st.cipher_context.ctx st.cipher_context.tag_length
    st.cipher_context.l nonce buf srclen aad la
  (to_size_t r.1, r.2,
    { st with log := st.log ++ [cipher_event.aead_decrypt st.cipher_context_mutex] })

/-- The source pointer of the gate: either the destination buffer itself
(`src == buf`) or a separate region holding the given bytes. -/
inductive src_pointer where
  | same_as_buf
  | separate (bytes : List Nat)
deriving DecidableEq, Repr

/-- The statement `if (src != buf) memmove(buf, src, length);`. -/
def move_src (src : src_pointer) (buf : List Nat) (length : Nat) : List Nat :=
  match src with
  | src_pointer.same_as_buf => buf
  | src_pointer.separate s => memcpy buf 0 s length

/-- The function `dtls_encrypt_params`.  Returns the `int` result, the
destination buffer and the state of the shared context. -/
def dtls_encrypt_params (P : cipher_primitives) (params : dtls_ccm_params_t)
    (src : src_pointer) (length : Nat) (buf : List Nat)
    (key : List Nat) (keylen : Nat) (aad : List Nat) (la : Nat) (st : cipher_state) :
    Option (Int × List Nat × cipher_state) :=
  match dtls_cipher_context_get st with
  | none => none
  | some st =>
    let st := set_tag_length st params.tag_length
    let st := set_l st params.l
    let r := set_key P st key (to_int (8 * (keylen : Int)))
    if r.1 < 0 then
      -- cleanup everything in case the key has the wrong size
      some (r.1, buf, dtls_cipher_context_release r.2)
    else
      let buf := move_src src buf length
      let e := dtls_ccm_encrypt P r.2 length buf params.nonce aad la
      some (to_int e.1, e.2.1, dtls_cipher_context_release e.2.2)

/-- The function `dtls_encrypt`: `dtls_encrypt_params` with M = 8 and L = 3. -/
def dtls_encrypt (P : cipher_primitives) (src : src_pointer) (length : Nat) (buf : List Nat)
    (nonce : List Nat) (key : List Nat) (keylen : Nat) (aad : List Nat) (la : Nat)
    (st : cipher_state) : Option (Int × List Nat × cipher_state) :=
  let params : dtls_ccm_params_t := { nonce := nonce, tag_length := 8, l := 3 }
  dtls_encrypt_params P params src length buf key keylen aad la st

/-- The function `dtls_decrypt_params`. -/
def dtls_decrypt_params (P : cipher_primitives) (params : dtls_ccm_params_t)
    (src : src_pointer) (length : Nat) (buf : List Nat)
    (key : List Nat) (keylen : Nat) (aad : List Nat) (la : Nat) (st : cipher_state) :
    Option (Int × List Nat × cipher_state) :=
  match dtls_cipher_context_get st with
  | none => none
  | some st =>
    let st := set_tag_length st params.tag_length
    let st := set_l st params.l
    let r := set_key P st key (to_int (8 * (keylen : Int)))
    if r.1 < 0 then
      -- cleanup everything in case the key has the wrong size
      some (r.1, buf, dtls_cipher_context_release r.2)
    else
      let buf := move_src src buf length
      let e := dtls_ccm_decrypt P r.2 length buf params.nonce aad la
      some (to_int e.1, e.2.1, dtls_cipher_context_release e.2.2)

/-- The function `dtls_decrypt`: `dtls_decrypt_params` with M = 8 and L = 3. -/
def dtls_decrypt (P : cipher_primitives) (src : src_pointer) (length : Nat) (buf : List Nat)
    (nonce : List Nat) (key : List Nat) (keylen : Nat) (aad : List Nat) (la : Nat)
    (st : cipher_state) : Option (Int × List Nat × cipher_state) :=
  let params : dtls_ccm_params_t := { nonce := nonce, tag_length := 8, l := 3 }
  dtls_decrypt_params P params src length buf key keylen aad la st

/-- A toy cipher to run the gate: keys of 16 bytes only, the key schedule is the
key, encryption xors the first key byte into each message byte and appends M tag
bytes holding the message length; decryption checks the tag. -/
def toy_cipher : cipher_primitives where
  rijndael_set_key_enc_only := fun ctx key bits =>
    if bits = 128 then (0, key.take 16) else (-1, ctx)
  dtls_ccm_encrypt_message := fun ks M _ _ msg lm _ _ =>
    ((lm + M : Nat),
      ((msg.take lm).map (fun b => b ^^^ ks.headD 0)) ++ List.replicate M (lm % 256)
        ++ msg.drop (lm + M))
  dtls_ccm_decrypt_message := fun ks M _ _ msg lm _ _ =>
    if M ≤ lm ∧ (msg.drop (lm - M)).take M = List.replicate M ((lm - M) % 256) then
      ((lm - M : Nat),
        ((msg.take (lm - M)).map (fun b => b ^^^ ks.headD 0))
          ++ msg.drop (lm - M))
    else (-1, msg)

/-- An idle shared context: mutex free, nothing logged. -/
def idle_state : cipher_state :=
  { cipher_context_mutex := false, cipher_context := { ctx := [], tag_length := 0, l := 0 },
    log := [] }

/-- The `n` bytes the gate reads from its source: the first `n` bytes of the
destination buffer when `src == buf`, of the separate region otherwise. -/
def src_bytes (src : src_pointer) (buf : List Nat) (n : Nat) : List Nat :=
  match src with
  | src_pointer.same_as_buf => buf.take n
  | src_pointer.separate s => s.take n

/-- The contract of the supplied cipher that the round trip rests on:
encryption returns the message length plus M; whether key setup succeeds
depends on the key only; and decryption under the same key, M, L, nonce and
associated data of what encryption left returns the message length and
restores the message. -/
structure aead_contract (P : cipher_primitives) : Prop where
  encrypt_length : ∀ ks M L nonce msg lm aad la,
    (P.dtls_ccm_encrypt_message ks M L nonce msg lm aad la).1 = ((lm + M : Nat) : Int)
  key_setup : ∀ c1 c2 key bits,
    0 ≤ (P.rijndael_set_key_enc_only c1 key bits).1 →
    0 ≤ (P.rijndael_set_key_enc_only c2 key bits).1
  round_trip : ∀ c1 c2 key bits M L nonce aad la msg msg2 n,
    0 ≤ (P.rijndael_set_key_enc_only c1 key bits).1 →
    n + M ≤ msg.length →
    msg2.take (n + M)
      = (P.dtls_ccm_encrypt_message (P.rijndael_set_key_enc_only c1 key bits).2 M L nonce
          msg n aad la).2.take (n + M) →
    (P.dtls_ccm_decrypt_message (P.rijndael_set_key_enc_only c2 key bits).2 M L nonce
        msg2 (n + M) aad la).1 = (n : Int) ∧
    (P.dtls_ccm_decrypt_message (P.rijndael_set_key_enc_only c2 key bits).2 M L nonce
        msg2 (n + M) aad la).2.take n = msg.take n

/-- Whether an event is a call of the AEAD transform. -/
def is_aead_call : cipher_event → Bool
  | cipher_event.aead_encrypt _ => true
  | cipher_event.aead_decrypt _ => true
  | _ => false

/-- Whether an event is a write to the cipher context made without the mutex
held. -/
def is_unguarded_write : cipher_event → Bool
  | cipher_event.write_tag_length held => !held
  | cipher_event.write_l held => !held
  | cipher_event.write_key_schedule held => !held
  | _ => false

/-- A cipher whose key setup always fails; it leaves a mark in the key schedule
and would overwrite the buffer if the transform were called. -/
def failing_cipher : cipher_primitives where
  rijndael_set_key_enc_only := fun ctx _ _ => (-1, 1 :: ctx)
  dtls_ccm_encrypt_message := fun _ _ _ _ _ _ _ _ => (0, [])
  dtls_ccm_decrypt_message := fun _ _ _ _ _ _ _ _ => (0, [])

/-! ## EC key conversion and the ASN.1 integer encoder -/

/-- Modelled from the spec: the macro `dtls_int_to_uint8(Field, Value)` of
`numeric.h` (absent from the sources) stores the low 8 bits of `Value`. -/
def dtls_int_to_uint8 (value : Nat) : List Nat :=
  [value % 256]

/-- Modelled from the spec: the macro `dtls_int_to_uint32(Field, Value)` of
`numeric.h` (absent from the sources) stores `Value` as a 32-bit big-endian
field, most significant byte first. -/
def dtls_int_to_uint32 (value : Nat) : List Nat :=
  [(value / 16777216) % 256, (value / 65536) % 256, (value / 256) % 256, value % 256]

/-- The body of the `for` loop of `dtls_ec_key_from_uint32`, run for the loop
variable `i = count - 1` down to `0`; `off` is how far `result` has advanced. -/
def dtls_ec_key_from_uint32_loop (key : List Nat) : Nat → Nat → List Nat → List Nat
  | 0, _, result => result
  | i + 1, off, result =>
    dtls_ec_key_from_uint32_loop key i (off + 4)
      (memcpy result off (dtls_int_to_uint32 (key.getD i 0)) 4)

/-- The static function `dtls_ec_key_from_uint32`.  The loop variable is an
`int` initialised from `key_size / sizeof(uint32_t) - 1`; `result` is the
memory from the pointer on. -/
def dtls_ec_key_from_uint32 (key : List Nat) (key_size : Nat) (result : List Nat) : List Nat :=
  let i := to_int (((key_size / 4 : Nat) : Int) - 1)
  dtls_ec_key_from_uint32_loop key (i + 1).toNat 0 result

/-- The loop `while (i < (int)key_size && buf[i] == 0) ++i;` with `remaining`
the distance from `i` to `(int)key_size`. -/
def skip_leading_zeros (buf : List Nat) : Nat → Nat → Nat
  | 0, i => i
  | remaining + 1, i => if buf.getD i 0 = 0 then skip_leading_zeros buf remaining (i + 1) else i

/-- The function `dtls_ec_key_asn1_from_uint32`.  `have_assert` says whether
`assert` is the one of `<assert.h>` (`HAVE_ASSERT_H` defined, `NDEBUG` not) or
the empty macro.  The result is `none` when the process is aborted by a failed
assertion, otherwise the `int` returned and the buffer. -/
def dtls_ec_key_asn1_from_uint32 (have_assert : Bool) (key : List Nat) (key_size : Nat)
    (buf : List Nat) : Option (Int × List Nat) :=
  -- ASN.1 Integer r
  let head := memcpy buf 0 (dtls_int_to_uint8 0x02) 1
  -- `lptr` is `buf + 1`; from here on `buf` is the memory from `buf + 2` on
  let buf := dtls_ec_key_from_uint32 key key_size (head.drop 2)
  -- skip leading 0's
  let i : Int := skip_leading_zeros buf (to_int key_size).toNat 0
  if have_assert && i == to_int key_size then none
  else if i = to_int key_size then
    some (0, head.take 2 ++ buf)
  else
    let i : Int := if buf.getD i.toNat 0 ≥ 0x80 then i - 1 else i
    if i > 0 then
      -- remove leading 0's
      let key_size := (to_size_t ((key_size : Int) - i)).toNat
      let buf := memcpy buf 0 (buf.drop i.toNat) key_size
      some (to_int (to_size_t ((key_size : Int) + 2)),
        memcpy (head.take 2) 1 (dtls_int_to_uint8 key_size) 1 ++ buf)
    else if i = -1 then
      -- add leading 0
      let buf := memcpy buf 1 buf key_size
      let buf := memcpy buf 0 [0] 1
      let key_size := (to_size_t ((key_size : Int) + 1)).toNat
      some (to_int (to_size_t ((key_size : Int) + 2)),
        memcpy (head.take 2) 1 (dtls_int_to_uint8 key_size) 1 ++ buf)
    else
      some (to_int (to_size_t ((key_size : Int) + 2)),
        memcpy (head.take 2) 1 (dtls_int_to_uint8 key_size) 1 ++ buf)

/-- The big-endian byte string of a word array given least-significant word
first: the last word first, each word most significant byte first. -/
def big_endian_bytes (words : List Nat) : List Nat :=
  words.reverse.flatMap
    (fun w => [(w / 16777216) % 256, (w / 65536) % 256, (w / 256) % 256, w % 256])

/-- The number a byte string denotes, read big-endian. -/
def big_endian_value (bytes : List Nat) : Nat :=
  bytes.foldl (fun acc b => acc * 256 + b) 0

/-- The number a word array denotes, least-significant word first: the sum of
`key[i] * 2^(32 * i)` over `i < n`. -/
def words_value (key : List Nat) (n : Nat) : Nat :=
  ((List.range n).map (fun i => key.getD i 0 * 2 ^ (32 * i))).sum

/-- The content octets of the INTEGER for a first non-zero byte `b` followed by
`rest`. -/
def asn1_content (b : Nat) (rest : List Nat) : List Nat :=
  if 128 ≤ b then 0 :: b :: rest else b :: rest

/-- The value of a word array, least-significant word first, by recursion. -/
def words_value_rec : List Nat → Nat
  | [] => 0
  | w :: ws => w + 4294967296 * words_value_rec ws

/-- Modelled from the spec: `dtls_uint32_to_int(field)` of `numeric.h` (absent
from the sources) reads a 32-bit big-endian field of four `unsigned char`. -/
def dtls_uint32_to_int (field : List Nat) : Nat :=
  (field.getD 0 0 % 256) * 16777216 + (field.getD 1 0 % 256) * 65536
    + (field.getD 2 0 % 256) * 256 + field.getD 3 0 % 256

/-- The body of the `for` loop of `dtls_ec_key_to_uint32`, run for the loop
variable `i = count - 1` down to `0`; `off` is how far `result` has advanced,
in words. -/
def dtls_ec_key_to_uint32_loop (key : List Nat) : Nat → Nat → List Nat → List Nat
  | 0, _, result => result
  | i + 1, off, result =>
    dtls_ec_key_to_uint32_loop key i (off + 1)
      (memcpy result off [dtls_uint32_to_int (key.drop (i * 4))] 1)

/-- The static function `dtls_ec_key_to_uint32`.  `key` is the byte buffer,
`result` the word array from the pointer on; the loop variable is an `int`
initialised from `key_size / sizeof(uint32_t) - 1`. -/
def dtls_ec_key_to_uint32 (key : List Nat) (key_size : Nat) (result : List Nat) : List Nat :=
  let i := to_int (((key_size / 4 : Nat) : Int) - 1)
  dtls_ec_key_to_uint32_loop key (i + 1).toNat 0 result

/-! ## Pre-master secrets, key generation and signing -/

/-- The curve arithmetic of `ecc/ecc.c`, supplied from outside `crypto.c`.  Word
arrays are lists of 32-bit words, least-significant word first.
`ecc_ecdh pub_x pub_y priv` gives `(result_x, result_y)`;
`ecc_is_valid_key priv` is the validity check; `ecc_gen_pub_key priv` gives
`(pub_x, pub_y)`; `ecc_ecdsa_sign priv hash randv` gives the result code and
what it leaves in `(point_r, point_s)`. -/
structure ecc_primitives where
  ecc_ecdh : List Nat → List Nat → List Nat → List Nat × List Nat
  ecc_is_valid_key : List Nat → Bool
  ecc_gen_pub_key : List Nat → List Nat × List Nat
  ecc_ecdsa_sign : List Nat → List Nat → List Nat → Int × List Nat × List Nat

/-- The function `dtls_ecdh_pre_master_secret`.  `priv0`, `pub_x0`, `pub_y0` are
what the local arrays `priv`, `pub_x`, `pub_y` hold on entry (they are not
initialised).  Returns the `int` result and the `result` buffer. -/
def dtls_ecdh_pre_master_secret (E : ecc_primitives) (priv0 pub_x0 pub_y0 : List Nat)
    (priv_key pub_key_x pub_key_y : List Nat) (key_size : Nat)
    (result : List Nat) (result_len : Nat) : Int × List Nat :=
  if result_len < key_size then (-1, result)
  else
    let priv := dtls_ec_key_to_uint32 priv_key key_size priv0
    let pub_x := dtls_ec_key_to_uint32 pub_key_x key_size pub_x0
    let pub_y := dtls_ec_key_to_uint32 pub_key_y key_size pub_y0
    let result_xy := E.ecc_ecdh pub_x pub_y priv
    let result := dtls_ec_key_from_uint32 result_xy.1 key_size result
    (to_int key_size, result)

/-- The function `dtls_psk_pre_master_secret`.  Returns the `int` result and the
`result` buffer. -/
def dtls_psk_pre_master_secret (key : List Nat) (keylen : Nat)
    (result : List Nat) (result_len : Nat) : Int × List Nat :=
  if (result_len : Int) < to_size_t (2 * (2 + (keylen : Int))) then (-1, result)
  else
    let p := memcpy result 0 (dtls_int_to_uint16 keylen) 2
    let p := memset p 2 0 keylen
    let p := memcpy p (2 + keylen) p 2
    let p := memcpy p (2 + keylen + 2) key keylen
    (to_int (to_size_t (2 * (2 + (keylen : Int)))), p)

/-- The `do ... while (!ecc_is_valid_key(priv))` loop of
`dtls_ecdsa_generate_key`.  `dtls_prng k buf len` is what the `k`-th call of the
random source leaves in the array it fills; the state is the number of draws
made and the array `priv`.  `none` means `fuel` iterations did not end the
loop. -/
def dtls_ecdsa_generate_key_loop (E : ecc_primitives)
    (dtls_prng : Nat → List Nat → Nat → List Nat) (key_size : Nat) :
    Nat → Nat → List Nat → Option (Nat × List Nat)
  | 0, _, _ => none
  | fuel + 1, k, priv =>
    let priv := dtls_prng k priv key_size
    if E.ecc_is_valid_key priv then some (k + 1, priv)
    else dtls_ecdsa_generate_key_loop E dtls_prng key_size fuel (k + 1) priv

/-- The function `dtls_ecdsa_generate_key`.  `priv0` is what the local array
`priv` holds on entry.  Returns the number of draws made and the buffers
`priv_key`, `pub_key_x`, `pub_key_y`. -/
def dtls_ecdsa_generate_key (E : ecc_primitives)
    (dtls_prng : Nat → List Nat → Nat → List Nat) (fuel : Nat) (priv0 : List Nat)
    (priv_key pub_key_x pub_key_y : List Nat) (key_size : Nat) :
    Option (Nat × List Nat × List Nat × List Nat) :=
  match dtls_ecdsa_generate_key_loop E dtls_prng key_size fuel 0 priv0 with
  | none => none
  | some (draws, priv) =>
    let pub := E.ecc_gen_pub_key priv
    some (draws,
      dtls_ec_key_from_uint32 priv key_size priv_key,
      dtls_ec_key_from_uint32 pub.1 key_size pub_key_x,
      dtls_ec_key_from_uint32 pub.2 key_size pub_key_y)

/-- The candidates of the random source: what `priv` holds after draw `k`. -/
def candidate (dtls_prng : Nat → List Nat → Nat → List Nat) (key_size : Nat)
    (priv0 : List Nat) : Nat → List Nat
  | 0 => dtls_prng 0 priv0 key_size
  | k + 1 => dtls_prng (k + 1) (candidate dtls_prng key_size priv0 k) key_size

/-- The `do ... while (ret)` loop of `dtls_ecdsa_create_sig_hash`.  The state is
the number of draws made, the arrays `randv`, `point_r`, `point_s`, and the list
of argument triples `(priv, hash, randv)` of the calls of `ecc_ecdsa_sign` so
far. -/
def dtls_ecdsa_create_sig_hash_loop (E : ecc_primitives)
    (dtls_prng : Nat → List Nat → Nat → List Nat) (key_size : Nat) (priv hash : List Nat) :
    Nat → Nat → List Nat → List Nat → List Nat → List (List Nat × List Nat × List Nat) →
      Option (Nat × List Nat × List Nat × List (List Nat × List Nat × List Nat))
  | 0, _, _, _, _, _ => none
  | fuel + 1, k, randv, _, _, calls =>
    let randv := dtls_prng k randv key_size
    let ret := E.ecc_ecdsa_sign priv hash randv
    let calls := calls ++ [(priv, hash, randv)]
    if ret.1 ≠ 0 then
      dtls_ecdsa_create_sig_hash_loop E dtls_prng key_size priv hash fuel (k + 1) randv
        ret.2.1 ret.2.2 calls
    else some (k + 1, ret.2.1, ret.2.2, calls)

/-- The function `dtls_ecdsa_create_sig_hash`.  `priv0`, `hash0`, `randv0` are
what the local arrays hold on entry.  Returns the number of draws made, the
arrays `point_r` and `point_s`, and the calls of `ecc_ecdsa_sign`. -/
def dtls_ecdsa_create_sig_hash (E : ecc_primitives)
    (dtls_prng : Nat → List Nat → Nat → List Nat) (fuel : Nat) (priv0 hash0 randv0 : List Nat)
    (priv_key : List Nat) (key_size : Nat) (sign_hash : List Nat) (sign_hash_size : Nat)
    (point_r point_s : List Nat) :
    Option (Nat × List Nat × List Nat × List (List Nat × List Nat × List Nat)) :=
  let priv := dtls_ec_key_to_uint32 priv_key key_size priv0
  let hash := dtls_ec_key_to_uint32 sign_hash sign_hash_size hash0
  dtls_ecdsa_create_sig_hash_loop E dtls_prng key_size priv hash fuel 0 randv0
    point_r point_s []

/-- A toy curve for running the definitions: the shared point is the sum of the
three inputs word by word, a key is valid when its first word is odd, the public
key is the private key doubled and tripled, and signing succeeds when the first
word of the nonce is even. -/
def toy_curve : ecc_primitives where
  ecc_ecdh := fun px py d =>
    (List.zipWith (fun a b => (a + b) % 4294967296) (List.zipWith (· + ·) px py) d, px)
  ecc_is_valid_key := fun d => d.headD 0 % 2 == 1
  ecc_gen_pub_key := fun d =>
    (d.map (fun x => (2 * x) % 4294967296), d.map (fun x => (3 * x) % 4294967296))
  ecc_ecdsa_sign := fun d e k =>
    (if k.headD 0 % 2 = 0 then 0 else -1, List.zipWith (· + ·) d k, List.zipWith (· + ·) e k)

/-- A toy random source: draw `k` fills the array with the word `k + 2`. -/
def toy_prng (k : Nat) (buf : List Nat) (_len : Nat) : List Nat :=
  buf.map (fun _ => k + 2)

/-- What the array filled by the random source holds before draw `k`: the
initial contents before the first draw, the previous candidate afterwards. -/
def before_draw (dtls_prng : Nat → List Nat → Nat → List Nat) (key_size : Nat)
    (buf0 : List Nat) : Nat → List Nat
  | 0 => buf0
  | k + 1 => candidate dtls_prng key_size buf0 k

/-! ## Parameter objects: allocation and release -/

/-- Modelled from the spec: `dtls_security_parameters_t` of `crypto.h` (absent
from the sources), the per-epoch security record.  `compression` and `cipher`
are the two identifiers; `other` is every other byte of the record. -/
structure dtls_security_parameters_t where
  compression : Nat
  cipher : Nat
  other : List Nat
deriving DecidableEq, Repr

/-- Modelled from the spec: `dtls_handshake_parameters_t` of `crypto.h` (absent
from the sources), the per-handshake record.  `reorder_queue` is the queue of
out-of-order fragments the record owns; `other` is every other byte of the
record. -/
structure dtls_handshake_parameters_t where
  reorder_queue : List (List Nat)
  other : List Nat
deriving DecidableEq, Repr

/-- What the lifecycle functions ask of their collaborators, in order. -/
inductive lifecycle_event where
  | crit (message : String)
  | netq_delete_all (handshake : Nat)
  | handshake_dealloc (handshake : Nat)
  | security_dealloc (security : Nat)
deriving DecidableEq, Repr

/-- The memory holding the records, by address, and the log of events.  A
pointer to a record is its index; `NULL` is `none`. -/
structure lifecycle_state where
  handshakes : List dtls_handshake_parameters_t
  securities : List dtls_security_parameters_t
  log : List lifecycle_event
deriving DecidableEq, Repr

/-- The effect of `memset(security, 0, sizeof(*security))` on a record. -/
def security_memset_zero (r : dtls_security_parameters_t) : dtls_security_parameters_t :=
  { compression := 0, cipher := 0, other := List.replicate r.other.length 0 }

/-- The function `dtls_security_new`.  `dtls_security_malloc` is the allocator of
the build (heap, memory block pool or memory array); `TLS_NULL_WITH_NULL_NULL`
and `TLS_COMPRESSION_NULL` are the constants of `global.h`.  Returns the pointer
and the state. -/
def dtls_security_new (dtls_security_malloc : lifecycle_state → Option Nat)
    (TLS_NULL_WITH_NULL_NULL TLS_COMPRESSION_NULL : Nat) (st : lifecycle_state) :
    Option Nat × lifecycle_state :=
  match dtls_security_malloc st with
  | none =>
    (none, { st with log := st.log
      ++ [lifecycle_event.crit "can not allocate a security struct\n"] })
  | some security =>
    let r := security_memset_zero (st.securities.getD security ⟨0, 0, []⟩)
    let r := { r with cipher := TLS_NULL_WITH_NULL_NULL }
    let r := { r with compression := TLS_COMPRESSION_NULL }
    (some security, { st with securities := st.securities.set security r })

/-- The function `dtls_security_free`. -/
def dtls_security_free (security : Option Nat) (st : lifecycle_state) : lifecycle_state :=
  match security with
  | none => st
  | some s => { st with log := st.log ++ [lifecycle_event.security_dealloc s] }

/-- Modelled from the spec: `netq_delete_all` of `netq.c` (absent from the
sources) drains the queue: every queued item is removed and freed. -/
def netq_delete_all (handshake : Nat) (st : lifecycle_state) : lifecycle_state :=
  { st with
    handshakes := st.handshakes.set handshake
      { (st.handshakes.getD handshake ⟨[], []⟩) with reorder_queue := [] },
    log := st.log ++ [lifecycle_event.netq_delete_all handshake] }

/-- The function `dtls_handshake_free`. -/
def dtls_handshake_free (handshake : Option Nat) (st : lifecycle_state) : lifecycle_state :=
  match handshake with
  | none => st
  | some h =>
    let st := netq_delete_all h st
    { st with log := st.log ++ [lifecycle_event.handshake_dealloc h] }

/-- A state with one handshake record holding two queued fragments and one
security record holding stale bytes. -/
def sample_lifecycle_state : lifecycle_state :=
  { handshakes := [{ reorder_queue := [[1, 2], [3]], other := [5, 5] }],
    securities := [{ compression := 9, cipher := 49320, other := [1, 2, 3] }],
    log := [] }

/-! ## Lemmas on the PRF -/

theorem hmac_update_seed_fed (ctx : dtls_hmac_context_t)
    (label : Option (List Nat)) (labellen : Nat)
    (random1 : Option (List Nat)) (random1len : Nat)
    (random2 : Option (List Nat)) (random2len : Nat) :
    HMAC_UPDATE_SEED (HMAC_UPDATE_SEED (HMAC_UPDATE_SEED ctx label labellen)
        random1 random1len) random2 random2len
      = { key := ctx.key,
          fed := ctx.fed ++ prf_seed label labellen random1 random1len random2 random2len } := by
  cases label <;> cases random1 <;> cases random2 <;>
    simp [HMAC_UPDATE_SEED, dtls_hmac_update, prf_seed, seed_part]

theorem prf_tail_succ (H : List Nat → List Nat → List Nat) (key seed : List Nat) (n : Nat) :
    ∀ j, prf_tail H key seed j (n + 1)
      = prf_tail H key seed j n ++ prf_chunk H key seed (j + n + 1) := by
  induction n with
  | zero => intro j; simp [prf_tail]
  | succ n ih =>
    intro j
    rw [prf_tail, ih (j + 1), prf_tail, List.append_assoc]
    have : j + 1 + n + 1 = j + (n + 1) + 1 := by omega
    rw [this]

theorem prf_chunks_eq_tail (H : List Nat → List Nat → List Nat) (key seed : List Nat) (n : Nat) :
    prf_chunks H key seed n = prf_tail H key seed 0 n := by
  induction n with
  | zero => simp [prf_chunks, prf_tail]
  | succ n ih =>
    rw [prf_tail_succ, ← ih]
    simp [prf_chunks, List.range_succ]

theorem prf_tail_length (H : List Nat → List Nat → List Nat) (d : Nat)
    (hd : ∀ k m, (H k m).length = d) (key seed : List Nat) (n : Nat) :
    ∀ j, (prf_tail H key seed j n).length = n * d := by
  induction n with
  | zero => intro j; simp [prf_tail]
  | succ n ih =>
    intro j
    simp [prf_tail, prf_chunk, hd, ih (j + 1)]
    ring

theorem prf_tail_add (H : List Nat → List Nat → List Nat) (key seed : List Nat) (m : Nat) :
    ∀ n j, prf_tail H key seed j (n + m)
      = prf_tail H key seed j n ++ prf_tail H key seed (j + n) m := by
  intro n
  induction n with
  | zero => intro j; simp [prf_tail]
  | succ n ih =>
    intro j
    have e : n + 1 + m = (n + m) + 1 := by omega
    rw [e, prf_tail, ih (j + 1), prf_tail, List.append_assoc]
    have : j + 1 + n = j + (n + 1) := by omega
    rw [this]

/-- The first `b` bytes of the block stream do not depend on how many blocks
are taken, once they cover `b` bytes. -/
theorem prf_tail_take_stable (H : List Nat → List Nat → List Nat) (d : Nat)
    (hd : ∀ k m, (H k m).length = d) (key seed : List Nat) (b n m : Nat)
    (hn : b ≤ n * d) (hm : b ≤ m * d) :
    (prf_tail H key seed 0 n).take b = (prf_tail H key seed 0 m).take b := by
  have key_fact : ∀ n m, n ≤ m → b ≤ n * d →
      (prf_tail H key seed 0 m).take b = (prf_tail H key seed 0 n).take b := by
    intro n m hnm hb
    obtain ⟨k, rfl⟩ := Nat.exists_eq_add_of_le hnm
    rw [prf_tail_add, List.take_append_of_le_length]
    rw [prf_tail_length H d hd]; exact hb
  rcases Nat.le_total n m with h | h
  · exact (key_fact n m h hn).symm
  · exact key_fact m n h hm

theorem splice_step (buf c X : List Nat) (len d buflen : Nat)
    (hc : c.length = d) (h1 : len + d ≤ buflen) (h2 : buflen ≤ buf.length) :
    (buf.take len ++ c ++ buf.drop (len + d)).take (len + d)
        ++ X.take (buflen - (len + d))
        ++ (buf.take len ++ c ++ buf.drop (len + d)).drop buflen
      = buf.take len ++ (c ++ X).take (buflen - len) ++ buf.drop buflen := by
  have hl : (buf.take len ++ c).length = len + d := by
    simp [hc]; omega
  have ht : (buf.take len ++ c ++ buf.drop (len + d)).take (len + d) = buf.take len ++ c := by
    rw [List.take_append_of_le_length (by omega), List.take_of_length_le (by omega)]
  have hdr : (buf.take len ++ c ++ buf.drop (len + d)).drop buflen = buf.drop buflen := by
    rw [List.drop_append_eq_append_drop, hl, List.drop_of_length_le (by omega)]
    simp only [List.nil_append, List.drop_drop]
    congr 1; omega
  have hx : (c ++ X).take (buflen - len) = c ++ X.take (buflen - (len + d)) := by
    rw [List.take_append_eq_append_take, List.take_of_length_le (by omega), hc]
    congr 2; omega
  rw [ht, hdr, hx]; simp [List.append_assoc]

theorem splice_last (buf c X : List Nat) (len d buflen : Nat)
    (hc : c.length = d) (h0 : len ≤ buflen) (h1 : ¬ len + d < buflen) :
    buf.take len ++ c.take (buflen - len) ++ buf.drop (len + (buflen - len))
      = buf.take len ++ (c ++ X).take (buflen - len) ++ buf.drop buflen := by
  rw [List.take_append_of_le_length (by omega)]
  congr 2; omega

theorem dtls_p_hash_loop_spec (H : List Nat → List Nat → List Nat) (d : Nat)
    (hd : ∀ k m, (H k m).length = d)
    (key : List Nat) (keylen : Nat)
    (label : Option (List Nat)) (labellen : Nat)
    (random1 : Option (List Nat)) (random1len : Nat)
    (random2 : Option (List Nat)) (random2len : Nat)
    (buflen : Nat) (fuel : Nat) :
    ∀ (j : Nat) (buf : List Nat), j * d ≤ buflen → buflen ≤ buf.length →
      buflen ≤ (j + fuel) * d →
      dtls_p_hash_loop H key keylen label labellen random1 random1len random2 random2len
          buflen fuel
          (prf_A H (key.take keylen)
            (prf_seed label labellen random1 random1len random2 random2len) (j + 1))
          d (j * d) buf
        = some (buf.take (j * d)
            ++ (prf_tail H (key.take keylen)
                  (prf_seed label labellen random1 random1len random2 random2len) j fuel).take
                (buflen - j * d)
            ++ buf.drop buflen) := by
  generalize hS : prf_seed label labellen random1 random1len random2 random2len = S
  generalize hK : key.take keylen = K
  induction fuel with
  | zero =>
    intro j buf h1 _ h3
    have e : j * d = buflen := by simp at h3; omega
    simp [dtls_p_hash_loop, e, prf_tail]
  | succ fuel ih =>
    intro j buf h1 h2 h3
    have hAt : (prf_A H K S (j + 1)).take d = prf_A H K S (j + 1) := by
      rw [List.take_of_length_le]; simp [prf_A, hd]
    rw [dtls_p_hash_loop]
    by_cases hlt : j * d < buflen
    · simp only [hlt, if_true, hmac_update_seed_fed]
      simp only [dtls_hmac_finalize, dtls_hmac_update, dtls_hmac_init, List.nil_append, hd, hAt,
        hS, hK]
      have hc : (prf_chunk H K S (j + 1)).length = d := by simp [prf_chunk, hd]
      have hce : H K (prf_A H K S (j + 1) ++ S) = prf_chunk H K S (j + 1) := rfl
      have hAe : H K (prf_A H K S (j + 1)) = prf_A H K S (j + 1 + 1) := rfl
      rw [hce, hAe]
      by_cases hlt2 : j * d + d < buflen
      · simp only [hlt2, if_true]
        have e1 : j * d + d = (j + 1) * d := by ring
        have hlen : (memcpy buf (j * d) (prf_chunk H K S (j + 1)) d).length = buf.length := by
          simp [memcpy, hc]; omega
        rw [e1, ih (j + 1) _ (by omega) (by omega) (by
          have : j + 1 + fuel = j + (fuel + 1) := by omega
          rw [this]; exact h3)]
        congr 1
        simp only [memcpy, prf_tail]
        rw [List.take_of_length_le (le_of_eq hc), ← e1]
        exact splice_step buf _ _ (j * d) d buflen hc (by omega) h2
      · simp only [hlt2, if_false]
        congr 1
        simp only [memcpy, prf_tail]
        exact splice_last buf _ _ (j * d) d buflen hc (by omega) hlt2
    · have e : j * d = buflen := by omega
      simp [e]

/-- What `dtls_prf` computes, for any number `n` of blocks that covers
`buflen` bytes. -/
theorem dtls_prf_spec (H : List Nat → List Nat → List Nat) (d : Nat)
    (hd : ∀ k m, (H k m).length = d)
    (key : List Nat) (keylen : Nat)
    (label : Option (List Nat)) (labellen : Nat)
    (random1 : Option (List Nat)) (random1len : Nat)
    (random2 : Option (List Nat)) (random2len : Nat)
    (buf : List Nat) (buflen fuel n : Nat)
    (hfuel : buflen ≤ fuel * d) (hn : buflen ≤ n * d) :
    dtls_prf H fuel key keylen label labellen random1 random1len random2 random2len buf buflen
      = some (buflen,
          (prf_chunks H (key.take keylen)
            (prf_seed label labellen random1 random1len random2 random2len) n).take buflen
          ++ buf.drop buflen) := by
  unfold dtls_prf dtls_p_hash
  simp only [hmac_update_seed_fed]
  simp only [dtls_hmac_finalize, dtls_hmac_init, List.nil_append, hd]
  have hA : H (key.take keylen) (prf_seed label labellen random1 random1len random2 random2len)
      = prf_A H (key.take keylen)
          (prf_seed label labellen random1 random1len random2 random2len) (0 + 1) := rfl
  have h0 : (0 : Nat) = 0 * d := by simp
  rw [hA]
  nth_rewrite 2 [h0]
  rw [dtls_p_hash_loop_spec H d hd key keylen label labellen random1 random1len random2
    random2len buflen fuel 0 _ (by simp) (by simp [memset]) (by simpa using hfuel)]
  simp only [Option.map_some', Nat.zero_mul, List.take_zero, List.nil_append, Nat.sub_zero]
  rw [prf_chunks_eq_tail, prf_tail_take_stable H d hd _ _ buflen fuel n hfuel hn]
  simp [memset]

theorem le_mul_digest_size (b f d : Nat) (hpos : 0 < d) (h : b ≤ f) : b ≤ f * d :=
  le_trans h (Nat.le_mul_of_pos_right f hpos)

/-! ## Theorems on the PRF -/

/-- C1: streaming-prefix property of `dtls_prf`.  With HMAC a fixed function of
positive digest size `d`, the call for `L` bytes and the call for `L + k` bytes
both return (given at least `L`, resp. `L + k`, loop iterations), and the first
`L` bytes written by the longer call are the `L` bytes written by the shorter
one, whatever the key and whichever of label, random1, random2 are absent. -/
theorem dtls_prf_streaming_prefix (H : List Nat → List Nat → List Nat) (d : Nat)
    (hd : ∀ k m, (H k m).length = d) (hpos : 0 < d)
    (key : List Nat) (keylen : Nat)
    (label : Option (List Nat)) (labellen : Nat)
    (random1 : Option (List Nat)) (random1len : Nat)
    (random2 : Option (List Nat)) (random2len : Nat)
    (buf1 buf2 : List Nat) (L k fuel1 fuel2 : Nat)
    (hf1 : L ≤ fuel1) (hf2 : L + k ≤ fuel2) :
    ∃ o1 o2,
      dtls_prf H fuel1 key keylen label labellen random1 random1len random2 random2len buf1 L
        = some (L, o1) ∧
      dtls_prf H fuel2 key keylen label labellen random1 random1len random2 random2len buf2
          (L + k) = some (L + k, o2) ∧
      o1.take L = o2.take L ∧ L ≤ o1.length := by
  have hc : (prf_chunks H (key.take keylen)
      (prf_seed label labellen random1 random1len random2 random2len) (L + k)).length
      = (L + k) * d := by
    rw [prf_chunks_eq_tail, prf_tail_length H d hd]
  have hLk : L + k ≤ (L + k) * d := Nat.le_mul_of_pos_right _ hpos
  have hL : L ≤ (L + k) * d := le_trans (Nat.le_add_right _ _) hLk
  refine ⟨_, _,
    dtls_prf_spec H d hd key keylen label labellen random1 random1len random2 random2len
      buf1 L fuel1 (L + k) (le_mul_digest_size _ _ _ hpos hf1) hL,
    dtls_prf_spec H d hd key keylen label labellen random1 random1len random2 random2len
      buf2 (L + k) fuel2 (L + k) (le_mul_digest_size _ _ _ hpos hf2) hLk, ?_, ?_⟩
  · rw [List.take_append_of_le_length (by rw [List.length_take, hc]; omega),
      List.take_append_of_le_length (by rw [List.length_take, hc]; omega)]
    simp [List.take_take]
  · rw [List.length_append, List.length_take, hc]; omega

/-- Witness for C1 with the toy keyed hash: 3 bytes against 3 + 2 bytes. -/
theorem dtls_prf_streaming_prefix_witness :
    ∃ o1 o2,
      dtls_prf toyH 3 [1, 2, 3] 3 (some [5, 6]) 2 none 0 (some [9]) 1 [7, 7, 7] 3
        = some (3, o1) ∧
      dtls_prf toyH 5 [1, 2, 3] 3 (some [5, 6]) 2 none 0 (some [9]) 1 [7, 7, 7, 7, 7, 7]
          (3 + 2) = some (3 + 2, o2) ∧
      o1.take 3 = o2.take 3 ∧ 3 ≤ o1.length :=
  dtls_prf_streaming_prefix toyH 2 (fun _ _ => rfl) (by decide) [1, 2, 3] 3 (some [5, 6]) 2
    none 0 (some [9]) 1 [7, 7, 7] [7, 7, 7, 7, 7, 7] 3 2 3 5 (by decide) (by decide)

/-- C2: `dtls_prf` is the reference P_hash.  With HMAC a fixed function of
positive digest size `d`, `seed = label ‖ random1 ‖ random2`, `A(0) = seed`,
`A(i) = HMAC(key, A(i-1))` and `chunk(i) = HMAC(key, A(i) ‖ seed)`, the call
returns `buflen` and leaves in `buf[0..buflen)` the first `buflen` bytes of
`chunk(1) ‖ chunk(2) ‖ ...` (any number `n` of chunks covering `buflen` bytes),
the rest of the buffer untouched; `buflen` loop iterations always suffice. -/
theorem dtls_prf_eq_reference (H : List Nat → List Nat → List Nat) (d : Nat)
    (hd : ∀ k m, (H k m).length = d) (hpos : 0 < d)
    (key : List Nat) (keylen : Nat)
    (label : Option (List Nat)) (labellen : Nat)
    (random1 : Option (List Nat)) (random1len : Nat)
    (random2 : Option (List Nat)) (random2len : Nat)
    (buf : List Nat) (buflen fuel n : Nat)
    (hfuel : buflen ≤ fuel) (hn : buflen ≤ n * d) :
    dtls_prf H fuel key keylen label labellen random1 random1len random2 random2len buf buflen
      = some (buflen,
          (prf_chunks H (key.take keylen)
            (prf_seed label labellen random1 random1len random2 random2len) n).take buflen
          ++ buf.drop buflen)
    ∧ ((prf_chunks H (key.take keylen)
            (prf_seed label labellen random1 random1len random2 random2len) n).take
          buflen).length = buflen := by
  refine ⟨dtls_prf_spec H d hd key keylen label labellen random1 random1len random2 random2len
    buf buflen fuel n (le_mul_digest_size _ _ _ hpos hfuel) hn, ?_⟩
  rw [List.length_take, prf_chunks_eq_tail, prf_tail_length H d hd]
  omega

/-- Witness for C2 with the toy keyed hash: `buflen = 4` is an exact multiple
of the digest size 2. -/
theorem dtls_prf_eq_reference_witness :
    dtls_prf toyH 4 [1, 2, 3] 3 (some [5, 6]) 2 none 0 (some [9]) 1 [7, 7, 7, 7, 7, 7] 4
      = some (4,
          (prf_chunks toyH ([1, 2, 3].take 3)
            (prf_seed (some [5, 6]) 2 none 0 (some [9]) 1) 2).take 4
          ++ [7, 7, 7, 7, 7, 7].drop 4)
    ∧ ((prf_chunks toyH ([1, 2, 3].take 3)
            (prf_seed (some [5, 6]) 2 none 0 (some [9]) 1) 2).take 4).length = 4 :=
  dtls_prf_eq_reference toyH 2 (fun _ _ => rfl) (by decide) [1, 2, 3] 3 (some [5, 6]) 2
    none 0 (some [9]) 1 [7, 7, 7, 7, 7, 7] 4 4 2 (by decide) (by decide)

/-! ## Theorems on `dtls_mac` -/

theorem sub_bytes_eq_take_drop (xs : List Nat) (a b : Nat) (h : b ≤ xs.length) :
    sub_bytes xs a b = (xs.drop a).take (b - a) := by
  apply List.ext_getElem
  · simp [sub_bytes]; omega
  · intro i h1 h2
    simp [sub_bytes] at h1 ⊢
    rw [List.getElem?_eq_getElem (by omega)]
    simp

theorem dtls_int_to_uint16_value (v : Nat) (h : v ≤ 65535) :
    ∃ hi lo, dtls_int_to_uint16 v = [hi, lo] ∧ hi < 256 ∧ lo < 256 ∧ 256 * hi + lo = v := by
  refine ⟨v / 256 % 256, v % 256, rfl, Nat.mod_lt _ (by decide), Nat.mod_lt _ (by decide), ?_⟩
  omega

/-- C3: for a record header of at least 11 bytes and a packet of `length`
bytes, `length <= 65535`, `dtls_mac` appends to what the context was fed exactly
`record[3..11) ‖ record[0..3) ‖ hi lo ‖ packet[0..length)`, where `hi lo` is the
big-endian 16-bit encoding of `length`, in this order and nothing else, and it
writes the finalisation of that context (the keyed hash of everything fed) at
the start of `buf`. -/
theorem dtls_mac_feeds_header_length_packet (H : List Nat → List Nat → List Nat)
    (hmac_ctx : dtls_hmac_context_t) (record packet : List Nat) (length : Nat) (buf : List Nat)
    (hrec : 11 ≤ record.length) (hlen : length ≤ 65535) (hpkt : length ≤ packet.length) :
    ∃ hi lo, hi < 256 ∧ lo < 256 ∧ 256 * hi + lo = length ∧
      (dtls_mac H hmac_ctx record packet length buf).1
        = { key := hmac_ctx.key,
            fed := hmac_ctx.fed ++ (sub_bytes record 3 11 ++ sub_bytes record 0 3 ++ [hi, lo]
                    ++ sub_bytes packet 0 length) } ∧
      (dtls_mac H hmac_ctx record packet length buf).2
        = H hmac_ctx.key (hmac_ctx.fed ++ (sub_bytes record 3 11 ++ sub_bytes record 0 3
                    ++ [hi, lo] ++ sub_bytes packet 0 length))
          ++ buf.drop (H hmac_ctx.key (hmac_ctx.fed ++ (sub_bytes record 3 11
                    ++ sub_bytes record 0 3 ++ [hi, lo] ++ sub_bytes packet 0 length))).length := by
  obtain ⟨hi, lo, he, h1, h2, h3⟩ := dtls_int_to_uint16_value length hlen
  refine ⟨hi, lo, h1, h2, h3, ?_⟩
  rw [sub_bytes_eq_take_drop record 3 11 hrec, sub_bytes_eq_take_drop record 0 3 (by omega),
    sub_bytes_eq_take_drop packet 0 length hpkt]
  simp [dtls_mac, dtls_hmac_update, dtls_hmac_finalize, memcpy, he, List.append_assoc]

/-- Witness for C3: a 13-byte header (epoch 0, sequence number 1) and the
5-byte fragment "hello", with the toy keyed hash. -/
theorem dtls_mac_feeds_header_length_packet_witness :
    ∃ hi lo, hi < 256 ∧ lo < 256 ∧ 256 * hi + lo = 5 ∧
      (dtls_mac toyH ⟨[1, 2], []⟩ [22, 254, 253, 0, 0, 0, 0, 0, 0, 0, 1, 0, 5]
          [104, 101, 108, 108, 111] 5 [0, 0, 0, 0]).1
        = { key := [1, 2],
            fed := [] ++ (sub_bytes [22, 254, 253, 0, 0, 0, 0, 0, 0, 0, 1, 0, 5] 3 11
                    ++ sub_bytes [22, 254, 253, 0, 0, 0, 0, 0, 0, 0, 1, 0, 5] 0 3 ++ [hi, lo]
                    ++ sub_bytes [104, 101, 108, 108, 111] 0 5) } ∧
      (dtls_mac toyH ⟨[1, 2], []⟩ [22, 254, 253, 0, 0, 0, 0, 0, 0, 0, 1, 0, 5]
          [104, 101, 108, 108, 111] 5 [0, 0, 0, 0]).2
        = toyH [1, 2] ([] ++ (sub_bytes [22, 254, 253, 0, 0, 0, 0, 0, 0, 0, 1, 0, 5] 3 11
                    ++ sub_bytes [22, 254, 253, 0, 0, 0, 0, 0, 0, 0, 1, 0, 5] 0 3
                    ++ [hi, lo] ++ sub_bytes [104, 101, 108, 108, 111] 0 5))
          ++ [0, 0, 0, 0].drop (toyH [1, 2] ([] ++
                    (sub_bytes [22, 254, 253, 0, 0, 0, 0, 0, 0, 0, 1, 0, 5] 3 11
                    ++ sub_bytes [22, 254, 253, 0, 0, 0, 0, 0, 0, 0, 1, 0, 5] 0 3 ++ [hi, lo]
                    ++ sub_bytes [104, 101, 108, 108, 111] 0 5))).length :=
  dtls_mac_feeds_header_length_packet toyH ⟨[1, 2], []⟩
    [22, 254, 253, 0, 0, 0, 0, 0, 0, 0, 1, 0, 5] [104, 101, 108, 108, 111] 5 [0, 0, 0, 0]
    (by decide) (by decide) (by decide)

/-! ## Theorems on the cipher gate -/

theorem to_int_to_size_t (x : Int) : to_int (to_size_t x) = to_int x := by
  unfold to_int to_size_t; omega

theorem to_int_lt (x : Int) : to_int x < 2147483648 := by
  unfold to_int; omega

theorem to_int_of_small (x : Int) (h0 : 0 ≤ x) (h1 : x < 2147483648) : to_int x = x := by
  unfold to_int; omega

theorem move_src_take (src : src_pointer) (buf : List Nat) (n : Nat)
    (h : (src_bytes src buf n).length = n) :
    (move_src src buf n).take n = src_bytes src buf n := by
  cases src with
  | same_as_buf => rfl
  | separate s =>
    simp only [src_bytes] at h
    simp only [move_src, memcpy, src_bytes, List.take_zero, List.nil_append]
    rw [List.take_append_of_le_length (by omega), List.take_take, Nat.min_self]

theorem move_src_length (src : src_pointer) (buf : List Nat) (n : Nat)
    (h : (src_bytes src buf n).length = n) (hb : n ≤ buf.length) :
    (move_src src buf n).length = buf.length := by
  cases src with
  | same_as_buf => rfl
  | separate s =>
    simp only [src_bytes] at h
    simp only [move_src, memcpy, List.take_zero, List.nil_append, List.length_append,
      List.length_drop, h, Nat.zero_add]
    omega

theorem split_take_append (xs A B : List Nat) (n M : Nat) (hA : A.length = n)
    (h : xs.take (n + M) = A ++ B) :
    xs.take n = A ∧ (xs.drop n).take M = B := by
  constructor
  · have h1 : (xs.take (n + M)).take n = xs.take n := by
      rw [List.take_take]; congr 1; omega
    rw [← h1, h, List.take_append_of_le_length (by omega), List.take_of_length_le (by omega)]
  · have h1 : (xs.take (n + M)).drop n = (xs.drop n).take M := by
      rw [List.drop_take]; congr 1; omega
    rw [← h1, h, List.drop_append_of_le_length (by omega), List.drop_of_length_le (by omega)]
    simp

theorem toy_cipher_contract : aead_contract toy_cipher where
  encrypt_length := by intros; rfl
  key_setup := by
    intro c1 c2 key bits h
    by_cases hb : bits = 128
    · simp [toy_cipher, hb]
    · simp [toy_cipher, hb] at h
  round_trip := by
    intro c1 c2 key bits M L nonce aad la msg msg2 n h hcap h2
    have hb : bits = 128 := by
      by_contra hb
      simp [toy_cipher, hb] at h
    simp only [toy_cipher, hb, if_true] at h2 ⊢
    generalize (key.take 16).headD 0 = k at h2 ⊢
    have hlen : ((msg.take n).map (fun b => b ^^^ k)).length = n := by
      rw [List.length_map, List.length_take]; omega
    have hrep : (List.replicate M (n % 256)).length = M := List.length_replicate _ _
    have h3 : msg2.take (n + M)
        = (msg.take n).map (fun b => b ^^^ k) ++ List.replicate M (n % 256) := by
      rw [h2, List.take_append_of_le_length
        (by rw [List.length_append, hlen, hrep]), List.take_of_length_le]
      rw [List.length_append, hlen, hrep]
    obtain ⟨hmsg, htag⟩ := split_take_append msg2 _ _ n M hlen h3
    simp only [Nat.add_sub_cancel, Nat.le_add_left, htag, and_self, if_true, true_and]
    have hl2 : ((msg2.take n).map (fun b => b ^^^ k)).length = n := by
      rw [hmsg, List.length_map, hlen]
    rw [List.take_append_of_le_length (by omega), List.take_of_length_le (by omega), hmsg,
      List.map_map]
    have : ((fun b => b ^^^ k) ∘ fun b => b ^^^ k) = id := by
      funext b; simp [Nat.xor_cancel_right]
    rw [this, List.map_id]

/-- C4: AEAD round trip through the cipher gate.  For a cipher meeting its
contract, any key, nonce, associated data, (M, L) and plaintext `p` of `n`
bytes (`n = 0` included): if `dtls_encrypt_params` returns the ciphertext
length `n + M` and leaves the `n + M` bytes `c` in its destination buffer, then
`dtls_decrypt_params` with the same params, key and associated data, reading
`c`, returns `n` and leaves `p` in the first `n` bytes of its destination
buffer.  Source and destination may be the same buffer or distinct ones, in
either call. -/
theorem dtls_decrypt_params_encrypt_params (P : cipher_primitives) (hP : aead_contract P)
    (params : dtls_ccm_params_t) (key : List Nat) (keylen : Nat) (aad : List Nat) (la : Nat)
    (src1 : src_pointer) (buf1 p : List Nat) (n : Nat) (st1 : cipher_state)
    (hp : src_bytes src1 buf1 n = p) (hpn : p.length = n)
    (hcap : n + params.tag_length ≤ buf1.length)
    (cbuf c : List Nat) (st1' : cipher_state)
    (henc : dtls_encrypt_params P params src1 n buf1 key keylen aad la st1
      = some (((n + params.tag_length : Nat) : Int), cbuf, st1'))
    (hc : cbuf.take (n + params.tag_length) = c) (hcn : c.length = n + params.tag_length)
    (src2 : src_pointer) (buf2 : List Nat) (st2 : cipher_state)
    (hsrc2 : src_bytes src2 buf2 (n + params.tag_length) = c)
    (hfree : st2.cipher_context_mutex = false) :
    ∃ out st2',
      dtls_decrypt_params P params src2 (n + params.tag_length) buf2 key keylen aad la st2
        = some ((n : Int), out, st2') ∧
      out.take n = p := by
  obtain ⟨nonce, M, L⟩ := params
  simp only at hcap henc hc hcn hsrc2 ⊢
  -- the encrypting call
  unfold dtls_encrypt_params dtls_cipher_context_get dtls_mutex_lock at henc
  by_cases hlock : st1.cipher_context_mutex = true
  · simp [hlock] at henc
  simp only [hlock, if_false, set_key, set_tag_length, set_l, dtls_ccm_encrypt,
    Bool.false_eq_true] at henc
  by_cases hk : (P.rijndael_set_key_enc_only st1.cipher_context.ctx key
      (to_int (8 * (keylen : Int)))).1 < 0
  · simp only [hk, if_true, Option.some.injEq, Prod.mk.injEq] at henc
    omega
  simp only [hk, if_false, Option.some.injEq, Prod.mk.injEq, to_int_to_size_t,
    hP.encrypt_length] at henc
  obtain ⟨hret, hcbuf, -⟩ := henc
  have hsmall : ((n + M : Nat) : Int) < 2147483648 := by
    have := to_int_lt ((n + M : Nat) : Int)
    rw [hret] at this; exact this
  have hmv1 : (move_src src1 buf1 n).take n = p := by
    rw [move_src_take src1 buf1 n (by rw [hp, hpn]), hp]
  have hmv1len : n + M ≤ (move_src src1 buf1 n).length := by
    rw [move_src_length src1 buf1 n (by rw [hp, hpn]) (by omega)]; exact hcap
  have hmv2 : (move_src src2 buf2 (n + M)).take (n + M) = c := by
    rw [move_src_take src2 buf2 (n + M) (by rw [hsrc2, hcn]), hsrc2]
  -- the decrypting call
  have hk2 := hP.key_setup st1.cipher_context.ctx st2.cipher_context.ctx key
    (to_int (8 * (keylen : Int))) (by omega)
  have hrt := hP.round_trip st1.cipher_context.ctx st2.cipher_context.ctx key
    (to_int (8 * (keylen : Int))) M L nonce aad la (move_src src1 buf1 n)
    (move_src src2 buf2 (n + M)) n (by omega) hmv1len (by rw [hmv2, ← hc, ← hcbuf])
  unfold dtls_decrypt_params dtls_cipher_context_get dtls_mutex_lock
  simp only [hfree, if_false, set_key, set_tag_length, set_l, dtls_ccm_decrypt,
    Bool.false_eq_true, not_lt.mpr hk2, to_int_to_size_t, hrt.1]
  rw [to_int_of_small _ (by omega) (by omega)]
  exact ⟨_, _, rfl, by rw [hrt.2, hmv1]⟩

/-- Witness for C4 with the toy cipher: three bytes encrypted from a separate
source with M = 4, decrypted in place. -/
theorem dtls_decrypt_params_encrypt_params_witness :
    ∃ out st2',
      dtls_decrypt_params toy_cipher ⟨[0, 1, 2], 4, 2⟩ src_pointer.same_as_buf (3 + 4)
          [9, 23, 29, 3, 3, 3, 3, 9] [3, 1, 4, 1, 5, 9, 2, 6, 5, 3, 5, 8, 9, 7, 9, 3] 16 [7] 1
          idle_state
        = some ((3 : Int), out, st2') ∧
      out.take 3 = [10, 20, 30] :=
  dtls_decrypt_params_encrypt_params toy_cipher toy_cipher_contract ⟨[0, 1, 2], 4, 2⟩
    [3, 1, 4, 1, 5, 9, 2, 6, 5, 3, 5, 8, 9, 7, 9, 3] 16 [7] 1
    (src_pointer.separate [10, 20, 30]) [0, 0, 0, 0, 0, 0, 0, 9] [10, 20, 30] 3 idle_state
    (by decide) (by decide) (by decide)
    [9, 23, 29, 3, 3, 3, 3, 9] [9, 23, 29, 3, 3, 3, 3]
    (dtls_cipher_context_release
      { cipher_context_mutex := true,
        cipher_context :=
          { ctx := [3, 1, 4, 1, 5, 9, 2, 6, 5, 3, 5, 8, 9, 7, 9, 3], tag_length := 4, l := 2 },
        log := [cipher_event.mutex_lock, cipher_event.write_tag_length true,
          cipher_event.write_l true, cipher_event.write_key_schedule true,
          cipher_event.aead_encrypt true] })
    (by decide) (by decide) (by decide)
    src_pointer.same_as_buf [9, 23, 29, 3, 3, 3, 3, 9] idle_state (by decide) (by decide)

/-- C5: key-setup failure performs no transformation.  When
`rijndael_set_key_enc_only` reports a negative result, `dtls_encrypt_params`
and `dtls_decrypt_params` return that value, leave the destination buffer as it
was (the source is not copied into it), and the AEAD transform is not called:
the call logs the lock, the three context writes and the unlock, nothing
else. -/
theorem key_setup_failure_no_transformation (P : cipher_primitives)
    (params : dtls_ccm_params_t) (src : src_pointer) (length : Nat) (buf : List Nat)
    (key : List Nat) (keylen : Nat) (aad : List Nat) (la : Nat) (st : cipher_state)
    (hfree : st.cipher_context_mutex = false)
    (hfail : (P.rijndael_set_key_enc_only st.cipher_context.ctx key
      (to_int (8 * (keylen : Int)))).1 < 0) :
    (∃ st', dtls_encrypt_params P params src length buf key keylen aad la st
        = some ((P.rijndael_set_key_enc_only st.cipher_context.ctx key
            (to_int (8 * (keylen : Int)))).1, buf, st') ∧
      st'.log = st.log ++ [cipher_event.mutex_lock, cipher_event.write_tag_length true,
        cipher_event.write_l true, cipher_event.write_key_schedule true,
        cipher_event.mutex_unlock] ∧
      ((st'.log.drop st.log.length).any is_aead_call) = false) ∧
    (∃ st', dtls_decrypt_params P params src length buf key keylen aad la st
        = some ((P.rijndael_set_key_enc_only st.cipher_context.ctx key
            (to_int (8 * (keylen : Int)))).1, buf, st') ∧
      st'.log = st.log ++ [cipher_event.mutex_lock, cipher_event.write_tag_length true,
        cipher_event.write_l true, cipher_event.write_key_schedule true,
        cipher_event.mutex_unlock] ∧
      ((st'.log.drop st.log.length).any is_aead_call) = false) := by
  constructor
  · unfold dtls_encrypt_params dtls_cipher_context_get dtls_mutex_lock
    simp only [hfree, if_false, set_key, set_tag_length, set_l, Bool.false_eq_true, hfail,
      if_true]
    refine ⟨_, rfl, ?_, ?_⟩
    · simp [dtls_cipher_context_release, dtls_mutex_unlock]
    · simp [dtls_cipher_context_release, dtls_mutex_unlock, is_aead_call]
  · unfold dtls_decrypt_params dtls_cipher_context_get dtls_mutex_lock
    simp only [hfree, if_false, set_key, set_tag_length, set_l, Bool.false_eq_true, hfail,
      if_true]
    refine ⟨_, rfl, ?_, ?_⟩
    · simp [dtls_cipher_context_release, dtls_mutex_unlock]
    · simp [dtls_cipher_context_release, dtls_mutex_unlock, is_aead_call]

/-- Witness for C5: the toy cipher refuses a 15-byte key; a separate source is
not copied into the destination. -/
theorem key_setup_failure_no_transformation_witness :
    (∃ st', dtls_encrypt_params toy_cipher ⟨[0, 1, 2], 4, 2⟩ (src_pointer.separate [10, 20, 30])
          3 [0, 0, 0, 0, 0, 0, 0, 9] [3, 1, 4, 1, 5, 9, 2, 6, 5, 3, 5, 8, 9, 7, 9] 15 [7] 1
          idle_state
        = some ((toy_cipher.rijndael_set_key_enc_only idle_state.cipher_context.ctx
            [3, 1, 4, 1, 5, 9, 2, 6, 5, 3, 5, 8, 9, 7, 9] (to_int (8 * ((15 : Nat) : Int)))).1,
            [0, 0, 0, 0, 0, 0, 0, 9], st') ∧
      st'.log = idle_state.log ++ [cipher_event.mutex_lock, cipher_event.write_tag_length true,
        cipher_event.write_l true, cipher_event.write_key_schedule true,
        cipher_event.mutex_unlock] ∧
      ((st'.log.drop idle_state.log.length).any is_aead_call) = false) ∧
    (∃ st', dtls_decrypt_params toy_cipher ⟨[0, 1, 2], 4, 2⟩ (src_pointer.separate [10, 20, 30])
          3 [0, 0, 0, 0, 0, 0, 0, 9] [3, 1, 4, 1, 5, 9, 2, 6, 5, 3, 5, 8, 9, 7, 9] 15 [7] 1
          idle_state
        = some ((toy_cipher.rijndael_set_key_enc_only idle_state.cipher_context.ctx
            [3, 1, 4, 1, 5, 9, 2, 6, 5, 3, 5, 8, 9, 7, 9] (to_int (8 * ((15 : Nat) : Int)))).1,
            [0, 0, 0, 0, 0, 0, 0, 9], st') ∧
      st'.log = idle_state.log ++ [cipher_event.mutex_lock, cipher_event.write_tag_length true,
        cipher_event.write_l true, cipher_event.write_key_schedule true,
        cipher_event.mutex_unlock] ∧
      ((st'.log.drop idle_state.log.length).any is_aead_call) = false) :=
  key_setup_failure_no_transformation toy_cipher ⟨[0, 1, 2], 4, 2⟩
    (src_pointer.separate [10, 20, 30]) 3 [0, 0, 0, 0, 0, 0, 0, 9]
    [3, 1, 4, 1, 5, 9, 2, 6, 5, 3, 5, 8, 9, 7, 9] 15 [7] 1 idle_state rfl (by decide)

/-- C6: the shared cipher workspace is released on every exit path.  Starting
with the mutex free, every call of `dtls_encrypt_params` and of
`dtls_decrypt_params` returns, leaves the mutex free, and the events it logs
begin with the one lock and end with the one unlock of the call; the writes of
`tag_length`, `l` and the key schedule all occur, each with the mutex held.
This holds whether key setup succeeds or fails. -/
theorem cipher_context_released (P : cipher_primitives)
    (params : dtls_ccm_params_t) (src : src_pointer) (length : Nat) (buf : List Nat)
    (key : List Nat) (keylen : Nat) (aad : List Nat) (la : Nat) (st : cipher_state)
    (hfree : st.cipher_context_mutex = false) :
    (∃ ret out st' mid,
      dtls_encrypt_params P params src length buf key keylen aad la st = some (ret, out, st') ∧
      st'.cipher_context_mutex = false ∧
      st'.log = st.log ++ ([cipher_event.mutex_lock] ++ mid ++ [cipher_event.mutex_unlock]) ∧
      mid.count cipher_event.mutex_lock = 0 ∧ mid.count cipher_event.mutex_unlock = 0 ∧
      mid.count (cipher_event.write_tag_length true) = 1 ∧
      mid.count (cipher_event.write_l true) = 1 ∧
      mid.count (cipher_event.write_key_schedule true) = 1 ∧
      mid.any is_unguarded_write = false) ∧
    (∃ ret out st' mid,
      dtls_decrypt_params P params src length buf key keylen aad la st = some (ret, out, st') ∧
      st'.cipher_context_mutex = false ∧
      st'.log = st.log ++ ([cipher_event.mutex_lock] ++ mid ++ [cipher_event.mutex_unlock]) ∧
      mid.count cipher_event.mutex_lock = 0 ∧ mid.count cipher_event.mutex_unlock = 0 ∧
      mid.count (cipher_event.write_tag_length true) = 1 ∧
      mid.count (cipher_event.write_l true) = 1 ∧
      mid.count (cipher_event.write_key_schedule true) = 1 ∧
      mid.any is_unguarded_write = false) := by
  constructor
  · unfold dtls_encrypt_params dtls_cipher_context_get dtls_mutex_lock
    simp only [hfree, if_false, set_key, set_tag_length, set_l, Bool.false_eq_true,
      dtls_ccm_encrypt, dtls_cipher_context_release, dtls_mutex_unlock]
    split
    · exact ⟨_, _, _, [cipher_event.write_tag_length true, cipher_event.write_l true,
        cipher_event.write_key_schedule true], rfl, rfl, by simp, by decide, by decide,
        by decide, by decide, by decide, by decide⟩
    · exact ⟨_, _, _, [cipher_event.write_tag_length true, cipher_event.write_l true,
        cipher_event.write_key_schedule true, cipher_event.aead_encrypt true], rfl, rfl,
        by simp, by decide, by decide, by decide, by decide, by decide, by decide⟩
  · unfold dtls_decrypt_params dtls_cipher_context_get dtls_mutex_lock
    simp only [hfree, if_false, set_key, set_tag_length, set_l, Bool.false_eq_true,
      dtls_ccm_decrypt, dtls_cipher_context_release, dtls_mutex_unlock]
    split
    · exact ⟨_, _, _, [cipher_event.write_tag_length true, cipher_event.write_l true,
        cipher_event.write_key_schedule true], rfl, rfl, by simp, by decide, by decide,
        by decide, by decide, by decide, by decide⟩
    · exact ⟨_, _, _, [cipher_event.write_tag_length true, cipher_event.write_l true,
        cipher_event.write_key_schedule true, cipher_event.aead_decrypt true], rfl, rfl,
        by simp, by decide, by decide, by decide, by decide, by decide, by decide⟩

/-- Witness for C6 on the key-setup failure path: a cipher whose key setup
always fails, called with the mutex free. -/
theorem cipher_context_released_witness :
    (∃ ret out st' mid,
      dtls_encrypt_params failing_cipher ⟨[0, 1, 2], 8, 3⟩ src_pointer.same_as_buf 2
        [10, 20, 0, 0, 0, 0, 0, 0, 0, 0] [1, 2, 3, 4] 4 [7] 1 idle_state = some (ret, out, st') ∧
      st'.cipher_context_mutex = false ∧
      st'.log = idle_state.log
        ++ ([cipher_event.mutex_lock] ++ mid ++ [cipher_event.mutex_unlock]) ∧
      mid.count cipher_event.mutex_lock = 0 ∧ mid.count cipher_event.mutex_unlock = 0 ∧
      mid.count (cipher_event.write_tag_length true) = 1 ∧
      mid.count (cipher_event.write_l true) = 1 ∧
      mid.count (cipher_event.write_key_schedule true) = 1 ∧
      mid.any is_unguarded_write = false) ∧
    (∃ ret out st' mid,
      dtls_decrypt_params failing_cipher ⟨[0, 1, 2], 8, 3⟩ src_pointer.same_as_buf 2
        [10, 20, 0, 0, 0, 0, 0, 0, 0, 0] [1, 2, 3, 4] 4 [7] 1 idle_state = some (ret, out, st') ∧
      st'.cipher_context_mutex = false ∧
      st'.log = idle_state.log
        ++ ([cipher_event.mutex_lock] ++ mid ++ [cipher_event.mutex_unlock]) ∧
      mid.count cipher_event.mutex_lock = 0 ∧ mid.count cipher_event.mutex_unlock = 0 ∧
      mid.count (cipher_event.write_tag_length true) = 1 ∧
      mid.count (cipher_event.write_l true) = 1 ∧
      mid.count (cipher_event.write_key_schedule true) = 1 ∧
      mid.any is_unguarded_write = false) :=
  cipher_context_released failing_cipher ⟨[0, 1, 2], 8, 3⟩ src_pointer.same_as_buf 2
    [10, 20, 0, 0, 0, 0, 0, 0, 0, 0] [1, 2, 3, 4] 4 [7] 1 idle_state rfl

/-- C7: the default entry points are the parameterized ones at tag length 8
and length-field size 3.  For all inputs and every state of the shared context,
`dtls_encrypt` has the result (return value, destination buffer, context) of
`dtls_encrypt_params` with `params = {nonce, 8, 3}`, and `dtls_decrypt` that of
`dtls_decrypt_params` with the same params. -/
theorem dtls_encrypt_decrypt_default_params (P : cipher_primitives) (src : src_pointer)
    (length : Nat) (buf nonce key : List Nat) (keylen : Nat) (aad : List Nat) (la : Nat)
    (st : cipher_state) :
    dtls_encrypt P src length buf nonce key keylen aad la st
      = dtls_encrypt_params P { nonce := nonce, tag_length := 8, l := 3 } src length buf
          key keylen aad la st ∧
    dtls_decrypt P src length buf nonce key keylen aad la st
      = dtls_decrypt_params P { nonce := nonce, tag_length := 8, l := 3 } src length buf
          key keylen aad la st :=
  ⟨rfl, rfl⟩

/-! ## Lemmas on the EC key conversion -/

theorem big_endian_bytes_length (words : List Nat) :
    (big_endian_bytes words).length = 4 * words.length := by
  induction words with
  | nil => rfl
  | cons w ws ih =>
    simp only [big_endian_bytes, List.reverse_cons, List.flatMap_append, List.length_append,
      List.flatMap_cons, List.flatMap_nil, List.append_nil, List.length_cons, List.length_nil]
      at ih ⊢
    omega

theorem big_endian_bytes_append_singleton (ws : List Nat) (w : Nat) :
    big_endian_bytes (ws ++ [w]) = dtls_int_to_uint32 w ++ big_endian_bytes ws := by
  simp [big_endian_bytes, dtls_int_to_uint32]

theorem big_endian_bytes_cons (ws : List Nat) (w : Nat) :
    big_endian_bytes (w :: ws) = big_endian_bytes ws ++ dtls_int_to_uint32 w := by
  simp [big_endian_bytes, dtls_int_to_uint32]

theorem take_succ_getD (key : List Nat) (c : Nat) (h : c < key.length) :
    key.take (c + 1) = key.take c ++ [key.getD c 0] := by
  rw [List.take_succ, List.getD_eq_getElem?_getD, List.getElem?_eq_getElem h]
  rfl

theorem dtls_ec_key_from_uint32_loop_spec (key : List Nat) (c : Nat) :
    ∀ (off : Nat) (result : List Nat), c ≤ key.length → off + 4 * c ≤ result.length →
      dtls_ec_key_from_uint32_loop key c off result
        = result.take off ++ big_endian_bytes (key.take c) ++ result.drop (off + 4 * c) := by
  induction c with
  | zero =>
    intro off result _ _
    simp [dtls_ec_key_from_uint32_loop, big_endian_bytes]
  | succ c ih =>
    intro off result hk hr
    have hw : (dtls_int_to_uint32 (key.getD c 0)).length = 4 := rfl
    have hlen : (memcpy result off (dtls_int_to_uint32 (key.getD c 0)) 4).length
        = result.length := by
      simp only [memcpy, List.length_append, List.length_take, List.length_drop, hw]
      omega
    rw [dtls_ec_key_from_uint32_loop, ih (off + 4) _ (by omega) (by rw [hlen]; omega),
      take_succ_getD key c (by omega), big_endian_bytes_append_singleton]
    have h1 : (memcpy result off (dtls_int_to_uint32 (key.getD c 0)) 4).take (off + 4)
        = result.take off ++ dtls_int_to_uint32 (key.getD c 0) := by
      have hl : (result.take off ++ (dtls_int_to_uint32 (key.getD c 0)).take 4).length
          = off + 4 := by
        simp only [List.length_append, List.length_take, hw]; omega
      rw [memcpy, List.take_append_of_le_length (by omega), List.take_of_length_le (by omega),
        List.take_of_length_le (le_of_eq hw)]
    have h2 : (memcpy result off (dtls_int_to_uint32 (key.getD c 0)) 4).drop (off + 4 + 4 * c)
        = result.drop (off + 4 * (c + 1)) := by
      have hl : (result.take off ++ (dtls_int_to_uint32 (key.getD c 0)).take 4).length
          = off + 4 := by
        simp only [List.length_append, List.length_take, hw]; omega
      rw [memcpy, List.drop_append_eq_append_drop, hl, List.drop_of_length_le (by omega),
        List.nil_append, List.drop_drop]
      congr 1; omega
    rw [h1, h2]
    simp only [List.append_assoc]

theorem dtls_ec_key_from_uint32_spec (key : List Nat) (n : Nat) (result : List Nat)
    (hn : n < 2147483648) (hk : n ≤ key.length) (hr : 4 * n ≤ result.length) :
    dtls_ec_key_from_uint32 key (4 * n) result
      = big_endian_bytes (key.take n) ++ result.drop (4 * n) := by
  have h4 : 4 * n / 4 = n := by omega
  have hc : (to_int (((4 * n / 4 : Nat) : Int) - 1) + 1).toNat = n := by
    rw [h4]; unfold to_int; omega
  unfold dtls_ec_key_from_uint32
  simp only [hc]
  rw [dtls_ec_key_from_uint32_loop_spec key n 0 result hk (by omega)]
  simp

theorem skip_leading_zeros_stop (z b : Nat) (more : List Nat) (hb : b ≠ 0) (r : Nat) :
    ∀ i, i ≤ z → z - i < r →
      skip_leading_zeros (List.replicate z 0 ++ b :: more) r i = z := by
  induction r with
  | zero => intro i _ h; omega
  | succ r ih =>
    intro i hi hr
    rw [skip_leading_zeros]
    rcases Nat.lt_or_ge i z with hlt | hge
    · have : (List.replicate z 0 ++ b :: more).getD i 0 = 0 := by
        rw [List.getD_eq_getElem?_getD, List.getElem?_append_left (by simpa using hlt)]
        simp [List.getElem?_replicate, hlt]
      rw [if_pos this]
      exact ih (i + 1) (by omega) (by omega)
    · have hiz : i = z := by omega
      have : (List.replicate z 0 ++ b :: more).getD i 0 = b := by
        rw [List.getD_eq_getElem?_getD, List.getElem?_append_right (by simp; omega)]
        simp [hiz]
      rw [if_neg (by rw [this]; exact hb)]
      exact hiz

theorem skip_leading_zeros_all (K : Nat) (more : List Nat) (r : Nat) :
    ∀ i, i + r ≤ K → skip_leading_zeros (List.replicate K 0 ++ more) r i = i + r := by
  induction r with
  | zero => intro i _; rfl
  | succ r ih =>
    intro i h
    rw [skip_leading_zeros]
    have : (List.replicate K 0 ++ more).getD i 0 = 0 := by
      rw [List.getD_eq_getElem?_getD, List.getElem?_append_left (by simp; omega)]
      have hiK : i < K := by omega
      simp [List.getElem?_replicate, hiK]
    rw [if_pos this, ih (i + 1) (by omega)]
    omega

theorem to_int_of_nat_small (k : Nat) (h : k < 2147483648) : to_int (k : Int) = (k : Int) := by
  unfold to_int; omega

theorem head_drop_two (buf : List Nat) :
    (memcpy buf 0 (dtls_int_to_uint8 0x02) 1).drop 2 = buf.drop 2 := by
  simp [memcpy, dtls_int_to_uint8]

theorem head_take_two (buf : List Nat) (h : 2 ≤ buf.length) (v : Nat) :
    memcpy ((memcpy buf 0 (dtls_int_to_uint8 0x02) 1).take 2) 1 (dtls_int_to_uint8 v) 1
      = [2, v % 256] := by
  match buf, h with
  | x :: y :: t, _ => simp [memcpy, dtls_int_to_uint8]

theorem memmove_strip (Z C T : List Nat) (m k : Nat) (hZ : Z.length = m) (hC : C.length = k) :
    memcpy (Z ++ (C ++ T)) 0 ((Z ++ (C ++ T)).drop m) k = C ++ (Z ++ (C ++ T)).drop k := by
  subst hZ hC
  simp [memcpy]

theorem asn1_encode_spec (a : Bool) (key : List Nat) (n : Nat) (buf : List Nat)
    (z b : Nat) (rest : List Nat)
    (hsmall : 4 * n + 3 < 2147483648) (hk : n ≤ key.length)
    (hbuf : 4 * n + 3 ≤ buf.length)
    (hB : big_endian_bytes (key.take n) = List.replicate z 0 ++ b :: rest) (hb : b ≠ 0) :
    dtls_ec_key_asn1_from_uint32 a key (4 * n) buf
      = some ((((asn1_content b rest).length + 2 : Nat) : Int),
          2 :: ((asn1_content b rest).length % 256) :: (asn1_content b rest
            ++ (big_endian_bytes (key.take n) ++ buf.drop (4 * n + 2)).drop
                (asn1_content b rest).length)) := by
  have hlenB : z + 1 + rest.length = 4 * n := by
    have := congrArg List.length hB
    rw [big_endian_bytes_length, List.length_take, Nat.min_eq_left hk] at this
    simp at this; omega
  have hK : to_int ((4 * n : Nat) : Int) = ((4 * n : Nat) : Int) :=
    to_int_of_nat_small _ (by omega)
  unfold dtls_ec_key_asn1_from_uint32
  simp only [head_drop_two buf, head_take_two buf (by omega), hK, Int.toNat_ofNat]
  rw [dtls_ec_key_from_uint32_spec key n _ (by omega) hk (by simp; omega), hB]
  simp only [List.append_assoc, List.cons_append, List.drop_drop]
  rw [skip_leading_zeros_stop z b _ hb (4 * n) 0 (by omega) (by omega)]
  generalize hT : List.drop (2 + 4 * n) buf = T
  have hT' : List.drop (4 * n + 2) buf = T := by rw [← hT, Nat.add_comm]
  have hTlen : 1 ≤ T.length := by rw [← hT, List.length_drop]; omega
  rw [hT']
  clear hT hT' hK hB hbuf hk
  generalize 4 * n = K at *
  subst hlenB
  have hget : (List.replicate z 0 ++ b :: (rest ++ T)).getD z 0 = b := by
    rw [List.getD_eq_getElem?_getD, List.getElem?_append_right (by simp)]
    simp
  have hzne : ¬ ((z : Int) = ((z + 1 + rest.length : Nat) : Int)) := by omega
  have hzne' : ((z : Int) == ((z + 1 + rest.length : Nat) : Int)) = false := by simpa using hzne
  simp only [hget, hzne, hzne', Bool.and_false, if_false, Bool.false_eq_true, List.nil_append]
  by_cases h128 : b ≥ 128
  · simp only [h128, if_true, asn1_content]
    rcases Nat.lt_or_ge z 2 with hz | hz
    · rcases Nat.eq_zero_or_pos z with hz0 | hz0
      · -- no leading zero byte: one is added
        subst hz0
        have e1 : ¬ ((((0 : Nat) : Int) - 1) > 0) := by omega
        have e2 : (((0 : Nat) : Int) - 1) = -1 := by omega
        have e3 : (to_size_t (((0 + 1 + rest.length : Nat) : Int) + 1)).toNat
            = rest.length + 2 := by
          unfold to_size_t; omega
        have e4 : to_int (to_size_t (((rest.length + 2 : Nat) : Int) + 2))
            = (((0 :: b :: rest).length + 2 : Nat) : Int) := by
          simp only [List.length_cons]
          unfold to_int to_size_t; omega
        simp only [e1, e2, if_false, if_true, e3, e4, List.replicate_zero, List.nil_append]
        match T, hTlen with
        | t :: T', _ =>
          have h1 : 1 + rest.length = rest.length + 1 := Nat.add_comm _ _
          have h2 : 0 + 1 + rest.length = rest.length + 1 := by omega
          have h3 : 1 + (rest.length + 1) = rest.length + 1 + 1 := by omega
          simp [memcpy, h1, h2, h3, List.drop_append]
      · -- one leading zero byte: it is kept
        obtain rfl : z = 1 := by omega
        have e1 : ¬ ((((1 : Nat) : Int) - 1) > 0) := by omega
        have e2 : ¬ ((((1 : Nat) : Int) - 1) = -1) := by omega
        have e4 : to_int (to_size_t (((1 + 1 + rest.length : Nat) : Int) + 2))
            = (((0 :: b :: rest).length + 2 : Nat) : Int) := by
          simp only [List.length_cons]
          unfold to_int to_size_t; omega
        have e5 : 1 + 1 + rest.length = (0 :: b :: rest).length := by
          simp only [List.length_cons]; omega
        simp only [e1, e2, if_false, e4]
        rw [e5]
        have hbody : List.replicate 1 0 ++ b :: (rest ++ T) = (0 :: b :: rest) ++ T := rfl
        rw [hbody, List.drop_left]
    · -- several leading zero bytes: all but one are removed
      obtain ⟨m, rfl⟩ : ∃ m, z = m + 1 := ⟨z - 1, by omega⟩
      have e1 : (((m + 1 : Nat) : Int) - 1) > 0 := by omega
      have e3 : (to_size_t (((m + 1 + 1 + rest.length : Nat) : Int)
          - (((m + 1 : Nat) : Int) - 1))).toNat = (0 :: b :: rest).length := by
        simp only [List.length_cons]
        unfold to_size_t; omega
      have e4 : to_int (to_size_t ((((0 :: b :: rest).length : Nat) : Int) + 2))
          = (((0 :: b :: rest).length + 2 : Nat) : Int) := by
        simp only [List.length_cons]
        unfold to_int to_size_t; omega
      have e5 : ((((m + 1 : Nat) : Int) - 1)).toNat = m := by omega
      simp only [e1, if_true, e3, e4, e5]
      have hbody : List.replicate (m + 1) 0 ++ b :: (rest ++ T)
          = List.replicate m 0 ++ ((0 :: b :: rest) ++ T) := by
        rw [List.replicate_succ']; simp
      rw [hbody, memmove_strip _ _ _ m _ (List.length_replicate _ _) rfl]
  · simp only [h128, if_false, asn1_content]
    rcases Nat.eq_zero_or_pos z with hz0 | hz0
    · -- the first byte is non-zero and below 0x80: nothing moves
      subst hz0
      have e1 : ¬ (((0 : Nat) : Int) > 0) := by omega
      have e2 : ¬ (((0 : Nat) : Int) = -1) := by omega
      have e4 : to_int (to_size_t (((0 + 1 + rest.length : Nat) : Int) + 2))
          = (((b :: rest).length + 2 : Nat) : Int) := by
        simp only [List.length_cons]
        unfold to_int to_size_t; omega
      have e5 : 0 + 1 + rest.length = (b :: rest).length := by
        simp only [List.length_cons]; omega
      simp only [e1, e2, if_false, e4]
      rw [e5]
      have hbody : List.replicate 0 0 ++ b :: (rest ++ T) = (b :: rest) ++ T := rfl
      rw [hbody, List.drop_left]
    · -- leading zero bytes are removed
      have e1 : ((z : Nat) : Int) > 0 := by omega
      have e3 : (to_size_t (((z + 1 + rest.length : Nat) : Int) - ((z : Nat) : Int))).toNat
          = (b :: rest).length := by
        simp only [List.length_cons]
        unfold to_size_t; omega
      have e4 : to_int (to_size_t ((((b :: rest).length : Nat) : Int) + 2))
          = (((b :: rest).length + 2 : Nat) : Int) := by
        simp only [List.length_cons]
        unfold to_int to_size_t; omega
      simp only [e1, if_true, e3, e4, Int.toNat_ofNat]
      have hbody : List.replicate z 0 ++ b :: (rest ++ T)
          = List.replicate z 0 ++ ((b :: rest) ++ T) := rfl
      rw [hbody, memmove_strip _ _ _ z _ (List.length_replicate _ _) rfl]

/-! ## Lemmas on values and leading zeros -/

theorem foldl_base256 (l : List Nat) :
    ∀ acc, l.foldl (fun acc b => acc * 256 + b) acc
      = acc * 256 ^ l.length + l.foldl (fun acc b => acc * 256 + b) 0 := by
  induction l with
  | nil => intro acc; simp
  | cons x xs ih =>
    intro acc
    simp only [List.foldl_cons, List.length_cons]
    rw [ih (acc * 256 + x), ih (0 * 256 + x)]
    ring

theorem big_endian_value_append (X Y : List Nat) :
    big_endian_value (X ++ Y) = big_endian_value X * 256 ^ Y.length + big_endian_value Y := by
  unfold big_endian_value
  rw [List.foldl_append, foldl_base256]

theorem big_endian_value_cons_zero (l : List Nat) :
    big_endian_value (0 :: l) = big_endian_value l := by
  simp [big_endian_value]

theorem big_endian_value_replicate_zero (z : Nat) (l : List Nat) :
    big_endian_value (List.replicate z 0 ++ l) = big_endian_value l := by
  induction z with
  | zero => simp
  | succ z ih =>
    rw [List.replicate_succ, List.cons_append, big_endian_value_cons_zero, ih]

theorem big_endian_value_uint32 (w : Nat) (h : w < 4294967296) :
    big_endian_value (dtls_int_to_uint32 w) = w := by
  simp only [big_endian_value, dtls_int_to_uint32, List.foldl_cons, List.foldl_nil]
  omega

theorem big_endian_value_bytes (ws : List Nat) (h : ∀ w ∈ ws, w < 4294967296) :
    big_endian_value (big_endian_bytes ws) = words_value_rec ws := by
  induction ws with
  | nil => rfl
  | cons w ws ih =>
    rw [big_endian_bytes_cons, big_endian_value_append,
      big_endian_value_uint32 w (h w (List.mem_cons_self _ _)),
      ih (fun x hx => h x (List.mem_cons_of_mem _ hx))]
    simp only [dtls_int_to_uint32, List.length_cons, List.length_nil, words_value_rec]
    omega

theorem words_value_eq_rec (key : List Nat) :
    ∀ n, n ≤ key.length → words_value key n = words_value_rec (key.take n) := by
  induction key with
  | nil =>
    intro n hn
    have : n = 0 := by simpa using hn
    subst this; rfl
  | cons w ws ih =>
    intro n hn
    cases n with
    | zero => rfl
    | succ n =>
      have hn' : n ≤ ws.length := by simpa using hn
      have hmap : (List.range n).map
            ((fun i => (w :: ws).getD i 0 * 2 ^ (32 * i)) ∘ Nat.succ)
          = (List.range n).map (fun i => 4294967296 * (ws.getD i 0 * 2 ^ (32 * i))) := by
        apply List.map_congr_left
        intro i _
        have e : (2 : Nat) ^ (32 * (i + 1)) = 4294967296 * 2 ^ (32 * i) := by
          rw [show 32 * (i + 1) = 32 + 32 * i by ring, pow_add]
          norm_num
        simp only [Function.comp, List.getD_cons_succ, e]
        ring
      have := ih n hn'
      unfold words_value at this ⊢
      rw [List.range_succ_eq_map, List.map_cons, List.sum_cons, List.map_map, hmap,
        List.take_succ_cons, words_value_rec, ← this, List.sum_map_mul_left]
      simp

theorem words_value_pos (key : List Nat) (n i : Nat) (hi : i < n) (h : key.getD i 0 ≠ 0) :
    0 < words_value key n := by
  unfold words_value
  apply Nat.pos_of_ne_zero
  intro h0
  rw [List.sum_eq_zero_iff] at h0
  have := h0 (key.getD i 0 * 2 ^ (32 * i))
    (List.mem_map.mpr ⟨i, List.mem_range.mpr hi, rfl⟩)
  rcases Nat.mul_eq_zero.mp this with h1 | h1
  · exact h h1
  · exact absurd h1 (by positivity)

theorem leading_zeros_split (l : List Nat) :
    l = List.replicate l.length 0 ∨
      ∃ z b rest, l = List.replicate z 0 ++ b :: rest ∧ b ≠ 0 := by
  induction l with
  | nil => left; rfl
  | cons x xs ih =>
    by_cases hx : x = 0
    · subst hx
      rcases ih with h | ⟨z, b, rest, h, hb⟩
      · left
        rw [List.length_cons, List.replicate_succ, ← h]
      · right
        exact ⟨z + 1, b, rest, by rw [List.replicate_succ, List.cons_append, ← h], hb⟩
    · right
      exact ⟨0, x, xs, rfl, hx⟩

theorem big_endian_bytes_zero (ws : List Nat) (h : ∀ w ∈ ws, w = 0) :
    big_endian_bytes ws = List.replicate (4 * ws.length) 0 := by
  induction ws with
  | nil => rfl
  | cons w ws ih =>
    rw [big_endian_bytes_cons, ih (fun x hx => h x (List.mem_cons_of_mem _ hx)),
      h w (List.mem_cons_self _ _)]
    rw [List.length_cons, Nat.mul_add, List.replicate_add]
    rfl

theorem big_endian_bytes_lt (ws : List Nat) : ∀ x ∈ big_endian_bytes ws, x < 256 := by
  induction ws with
  | nil => intro x hx; simp [big_endian_bytes] at hx
  | cons w ws ih =>
    intro x hx
    rw [big_endian_bytes_cons, List.mem_append] at hx
    rcases hx with hx | hx
    · exact ih x hx
    · simp only [dtls_int_to_uint32, List.mem_cons, List.mem_singleton, List.not_mem_nil,
        or_false] at hx
      rcases hx with rfl | rfl | rfl | rfl <;> exact Nat.mod_lt _ (by decide)

theorem mem_take_of_getD (key : List Nat) (n : Nat) (P : Nat → Prop)
    (h : ∀ i, i < n → P (key.getD i 0)) : ∀ w ∈ key.take n, P w := by
  intro w hw
  obtain ⟨i, hi, rfl⟩ := List.getElem_of_mem hw
  rw [List.length_take] at hi
  rw [List.getElem_take]
  have := h i (by omega)
  rw [List.getD_eq_getElem?_getD, List.getElem?_eq_getElem (by omega)] at this
  simpa using this

/-- A non-zero word array has a first non-zero byte in its big-endian form. -/
theorem big_endian_bytes_first_nonzero (key : List Nat) (n : Nat) (hk : n ≤ key.length)
    (hw : ∀ i, i < n → key.getD i 0 < 4294967296)
    (hnz : ∃ i, i < n ∧ key.getD i 0 ≠ 0) :
    ∃ z b rest, big_endian_bytes (key.take n) = List.replicate z 0 ++ b :: rest ∧ b ≠ 0 := by
  rcases leading_zeros_split (big_endian_bytes (key.take n)) with h | h
  · exfalso
    obtain ⟨i, hi, hne⟩ := hnz
    have hv := big_endian_value_bytes (key.take n) (mem_take_of_getD key n _ hw)
    rw [h, ← List.append_nil (List.replicate _ 0), big_endian_value_replicate_zero,
      ← words_value_eq_rec key n hk] at hv
    have := words_value_pos key n i hi hne
    simp [big_endian_value] at hv
    omega
  · exact h

theorem asn1_all_zero (a : Bool) (key : List Nat) (n : Nat) (buf : List Nat)
    (hsmall : 4 * n < 2147483648) (hk : n ≤ key.length) (hbuf : 4 * n + 2 ≤ buf.length)
    (hz : ∀ i, i < n → key.getD i 0 = 0) :
    dtls_ec_key_asn1_from_uint32 a key (4 * n) buf
      = if a then none
        else some (0, (memcpy buf 0 (dtls_int_to_uint8 0x02) 1).take 2
            ++ (List.replicate (4 * n) 0 ++ buf.drop (4 * n + 2))) := by
  have hK : to_int ((4 * n : Nat) : Int) = ((4 * n : Nat) : Int) :=
    to_int_of_nat_small _ (by omega)
  have hB : big_endian_bytes (key.take n) = List.replicate (4 * n) 0 := by
    rw [big_endian_bytes_zero _ (mem_take_of_getD key n _ hz), List.length_take,
      Nat.min_eq_left hk]
  unfold dtls_ec_key_asn1_from_uint32
  simp only [head_drop_two buf, hK, Int.toNat_ofNat]
  rw [dtls_ec_key_from_uint32_spec key n _ (by omega) hk (by simp; omega), hB]
  rw [skip_leading_zeros_all (4 * n) _ (4 * n) 0 (by omega)]
  simp only [List.drop_drop, Nat.zero_add, beq_self_eq_true, Bool.and_true, if_true]
  rw [Nat.add_comm 2 (4 * n)]

/-! ## Theorems on the ASN.1 integer encoder -/

theorem getD_replicate_zero (n i : Nat) : (List.replicate n 0).getD i 0 = 0 := by
  rw [List.getD_eq_getElem?_getD, List.getElem?_replicate]
  split <;> rfl

/-- For a `key_size` of at least `2^31` the cast `(int)key_size` is negative:
the loop over the leading zeros does not run, the all-zero test fails, and the
value returned is `key_size + 2` wrapped to `int`. -/
theorem asn1_large_key_size (a : Bool) (key buf : List Nat) (n : Nat)
    (h1 : 2147483648 ≤ 4 * n) (h2 : 4 * n + 2 < 4294967296)
    (hk : n ≤ key.length) (hbuf : 4 * n + 3 ≤ buf.length)
    (hz : ∀ i, i < n → key.getD i 0 = 0) :
    (dtls_ec_key_asn1_from_uint32 a key (4 * n) buf).map Prod.fst
      = some (((4 * n + 2 : Nat) : Int) - 4294967296) := by
  have hK : to_int ((4 * n : Nat) : Int) = ((4 * n : Nat) : Int) - 4294967296 := by
    unfold to_int; omega
  have hKn : (((4 * n : Nat) : Int) - 4294967296).toNat = 0 := by omega
  have hB : big_endian_bytes (key.take n) = List.replicate (4 * n) 0 := by
    rw [big_endian_bytes_zero _ (mem_take_of_getD key n _ hz), List.length_take,
      Nat.min_eq_left hk]
  have hget : (List.replicate (4 * n) 0 ++ List.drop (4 * n) (List.drop 2 buf)).getD 0 0 = 0 := by
    rw [List.getD_eq_getElem?_getD, List.getElem?_append_left (by simp; omega),
      ← List.getD_eq_getElem?_getD, getD_replicate_zero]
  have hne : ¬ ((0 : Int) = ((4 * n : Nat) : Int) - 4294967296) := by omega
  have hne' : ((0 : Int) == ((4 * n : Nat) : Int) - 4294967296) = false := by simpa using hne
  have hret : to_int (to_size_t (((4 * n : Nat) : Int) + 2))
      = ((4 * n + 2 : Nat) : Int) - 4294967296 := by
    unfold to_int to_size_t; omega
  unfold dtls_ec_key_asn1_from_uint32
  simp only [head_drop_two buf, hK, hKn]
  rw [dtls_ec_key_from_uint32_spec key n _ (by omega) hk (by simp; omega), hB]
  simp only [skip_leading_zeros, Nat.cast_zero, Int.toNat_zero, hget, hne, hne', Bool.and_false,
    if_false, Bool.false_eq_true, ge_iff_le, show ¬ ((128 : Nat) ≤ 0) by decide, gt_iff_lt,
    lt_self_iff_false, show ¬ ((0 : Int) = -1) by decide, hret, Option.map_some']

/-- C8, as stated, fails: with `assert` compiled in, an all-zero 4-byte input
aborts the process instead of returning 0; and with `assert` compiled out, an
all-zero input of `key_size = 2^31` bytes makes the function return
`-2147483646`, not 0. -/
theorem asn1_all_zero_not_always_zero :
    (¬ ∃ out, dtls_ec_key_asn1_from_uint32 true [0] 4 [7, 7, 7, 7, 7, 7, 7] = some (0, out)) ∧
    dtls_ec_key_asn1_from_uint32 true [0] 4 [7, 7, 7, 7, 7, 7, 7] = none ∧
    (dtls_ec_key_asn1_from_uint32 false (List.replicate 536870912 0) (4 * 536870912)
        (List.replicate (4 * 536870912 + 3) 0)).map Prod.fst = some (-2147483646) := by
  have h : dtls_ec_key_asn1_from_uint32 true [0] 4 [7, 7, 7, 7, 7, 7, 7] = none := by decide
  refine ⟨by rw [h]; simp, h, ?_⟩
  rw [asn1_large_key_size false (List.replicate 536870912 0)
    (List.replicate (4 * 536870912 + 3) 0) 536870912 (by norm_num) (by norm_num)
    (by rw [List.length_replicate]) (by rw [List.length_replicate])
    (fun i _ => getD_replicate_zero _ i)]
  norm_num

/-- C8, amended: for `key_size` a positive multiple of 4 below `2^31`, an
all-zero input makes `dtls_ec_key_asn1_from_uint32` return 0 when `assert` is
compiled out, and abort at `assert(i != (int)key_size)` when it is compiled in;
an input of 32-bit words with at least one non-zero word makes it return a
value of at least 3, in both builds. -/
theorem asn1_all_zero_reported (key : List Nat) (key_size : Nat) (buf : List Nat)
    (hpos : 0 < key_size) (hmul : key_size % 4 = 0) (hsmall : key_size < 2147483648)
    (hk : key_size / 4 ≤ key.length) (hbuf : key_size + 3 ≤ buf.length) :
    ((∀ i, i < key_size / 4 → key.getD i 0 = 0) →
      (∃ out, dtls_ec_key_asn1_from_uint32 false key key_size buf = some (0, out)) ∧
      dtls_ec_key_asn1_from_uint32 true key key_size buf = none) ∧
    ((∀ i, i < key_size / 4 → key.getD i 0 < 4294967296) →
      (∃ i, i < key_size / 4 ∧ key.getD i 0 ≠ 0) →
      ∀ have_assert, ∃ ret out,
        dtls_ec_key_asn1_from_uint32 have_assert key key_size buf = some (ret, out) ∧
        3 ≤ ret) := by
  obtain ⟨n, rfl⟩ : ∃ n, key_size = 4 * n := ⟨key_size / 4, by omega⟩
  have h4 : 4 * n / 4 = n := by omega
  rw [h4] at hk ⊢
  constructor
  · intro hz
    constructor
    · exact ⟨_, by rw [asn1_all_zero false key n buf hsmall hk (by omega) hz]; rfl⟩
    · rw [asn1_all_zero true key n buf hsmall hk (by omega) hz]; rfl
  · intro hw hnz a
    obtain ⟨z, b, rest, hB, hb⟩ := big_endian_bytes_first_nonzero key n hk hw hnz
    refine ⟨_, _, asn1_encode_spec a key n buf z b rest (by omega) hk hbuf hB hb, ?_⟩
    have : 1 ≤ (asn1_content b rest).length := by
      unfold asn1_content; split <;> simp
    omega

/-- Witness for the amended C8: one all-zero word, `key_size = 4`. -/
theorem asn1_all_zero_reported_witness :
    ((∀ i, i < 4 / 4 → [0].getD i 0 = 0) →
      (∃ out, dtls_ec_key_asn1_from_uint32 false [0] 4 [7, 7, 7, 7, 7, 7, 7] = some (0, out)) ∧
      dtls_ec_key_asn1_from_uint32 true [0] 4 [7, 7, 7, 7, 7, 7, 7] = none) ∧
    ((∀ i, i < 4 / 4 → [0].getD i 0 < 4294967296) →
      (∃ i, i < 4 / 4 ∧ [0].getD i 0 ≠ 0) →
      ∀ have_assert, ∃ ret out,
        dtls_ec_key_asn1_from_uint32 have_assert [0] 4 [7, 7, 7, 7, 7, 7, 7] = some (ret, out) ∧
        3 ≤ ret) :=
  asn1_all_zero_reported [0] 4 [7, 7, 7, 7, 7, 7, 7] (by decide) (by decide) (by decide)
    (by decide) (by decide)

/-- C9: sign-byte rule of `dtls_ec_key_asn1_from_uint32`.  For `key_size` a
positive multiple of 4, at most 124, let the big-endian form of the input be
`z` zero bytes, then a non-zero byte `b`, then `rest`.  If `b >= 0x80` the
content written is one `0x00` byte followed by `b` and `rest`; if `b < 0x80`
the content is `b` and `rest`, with no zero byte in front.  This holds for
every `z` (no, one or several leading zero bytes) and whether or not `assert`
is compiled in. -/
theorem asn1_sign_byte_rule (have_assert : Bool) (key : List Nat) (key_size : Nat)
    (buf : List Nat) (z b : Nat) (rest : List Nat)
    (hpos : 0 < key_size) (hmul : key_size % 4 = 0) (hmax : key_size ≤ 124)
    (hk : key_size / 4 ≤ key.length) (hbuf : key_size + 3 ≤ buf.length)
    (hB : big_endian_bytes (key.take (key_size / 4)) = List.replicate z 0 ++ b :: rest)
    (hb : b ≠ 0) :
    (128 ≤ b → ∃ tail,
      dtls_ec_key_asn1_from_uint32 have_assert key key_size buf
        = some (((rest.length + 4 : Nat) : Int),
            2 :: (rest.length + 2) :: (0 :: b :: rest ++ tail))) ∧
    (b < 128 → ∃ tail,
      dtls_ec_key_asn1_from_uint32 have_assert key key_size buf
        = some (((rest.length + 3 : Nat) : Int),
            2 :: (rest.length + 1) :: (b :: rest ++ tail))) := by
  obtain ⟨n, rfl⟩ : ∃ n, key_size = 4 * n := ⟨key_size / 4, by omega⟩
  have h4 : 4 * n / 4 = n := by omega
  rw [h4] at hk hB
  have hlenB : z + 1 + rest.length = 4 * n := by
    have := congrArg List.length hB
    rw [big_endian_bytes_length, List.length_take, Nat.min_eq_left hk] at this
    simp at this; omega
  have hspec := asn1_encode_spec have_assert key n buf z b rest (by omega) hk hbuf hB hb
  constructor
  · intro h
    have hc : asn1_content b rest = 0 :: b :: rest := by simp [asn1_content, h]
    rw [hc] at hspec
    refine ⟨List.drop (0 :: b :: rest).length
      (big_endian_bytes (List.take n key) ++ List.drop (4 * n + 2) buf), ?_⟩
    rw [hspec]
    simp only [List.length_cons, List.cons_append]
    rw [Nat.mod_eq_of_lt (by omega)]
  · intro h
    have hc : asn1_content b rest = b :: rest := by
      simp [asn1_content, Nat.not_le.mpr h]
    rw [hc] at hspec
    refine ⟨List.drop (b :: rest).length
      (big_endian_bytes (List.take n key) ++ List.drop (4 * n + 2) buf), ?_⟩
    rw [hspec]
    simp only [List.length_cons, List.cons_append]
    rw [Nat.mod_eq_of_lt (by omega)]

/-- Witness for C9: the 8-byte value `00 80 00 00 01 02 03 04`, one leading
zero byte and a first non-zero byte with the high bit set. -/
theorem asn1_sign_byte_rule_witness :
    (128 ≤ 128 → ∃ tail,
      dtls_ec_key_asn1_from_uint32 true [0x01020304, 0x00800000] 8
          [7, 7, 7, 7, 7, 7, 7, 7, 7, 7, 7, 7]
        = some ((([0, 0, 1, 2, 3, 4].length + 4 : Nat) : Int),
            2 :: ([0, 0, 1, 2, 3, 4].length + 2) :: (0 :: 128 :: [0, 0, 1, 2, 3, 4] ++ tail))) ∧
    (128 < 128 → ∃ tail,
      dtls_ec_key_asn1_from_uint32 true [0x01020304, 0x00800000] 8
          [7, 7, 7, 7, 7, 7, 7, 7, 7, 7, 7, 7]
        = some ((([0, 0, 1, 2, 3, 4].length + 3 : Nat) : Int),
            2 :: ([0, 0, 1, 2, 3, 4].length + 1) :: (128 :: [0, 0, 1, 2, 3, 4] ++ tail))) :=
  asn1_sign_byte_rule true [0x01020304, 0x00800000] 8 [7, 7, 7, 7, 7, 7, 7, 7, 7, 7, 7, 7]
    1 128 [0, 0, 1, 2, 3, 4] (by decide) (by decide) (by decide) (by decide) (by decide)
    (by decide) (by decide)

/-- C10: `dtls_ec_key_asn1_from_uint32` produces a minimal, value-preserving
INTEGER.  For a non-zero array of 32-bit words, least-significant word first,
and `key_size` a positive multiple of 4, at most 124, the output is the tag
byte `0x02`, one length byte equal to the content length `n`, then `n` content
bytes; the value returned is `n + 2`; the content read big-endian is the sum of
`key[i] * 2^(32 * i)`; its first byte has the high bit clear; and it does not
start with `0x00` followed by a byte below `0x80`. -/
theorem asn1_minimal_integer (have_assert : Bool) (key : List Nat) (key_size : Nat)
    (buf : List Nat)
    (hpos : 0 < key_size) (hmul : key_size % 4 = 0) (hmax : key_size ≤ 124)
    (hk : key_size / 4 ≤ key.length) (hbuf : key_size + 3 ≤ buf.length)
    (hw : ∀ i, i < key_size / 4 → key.getD i 0 < 4294967296)
    (hnz : ∃ i, i < key_size / 4 ∧ key.getD i 0 ≠ 0) :
    ∃ content tail,
      dtls_ec_key_asn1_from_uint32 have_assert key key_size buf
        = some (((content.length + 2 : Nat) : Int),
            2 :: content.length :: (content ++ tail)) ∧
      content.length < 128 ∧
      (∀ x ∈ content, x < 256) ∧
      big_endian_value content = words_value key (key_size / 4) ∧
      (∃ c tl, content = c :: tl ∧ c < 128) ∧
      ¬ (∃ c tl, content = 0 :: c :: tl ∧ c < 128) := by
  obtain ⟨n, rfl⟩ : ∃ n, key_size = 4 * n := ⟨key_size / 4, by omega⟩
  have h4 : 4 * n / 4 = n := by omega
  rw [h4] at hk hw hnz ⊢
  obtain ⟨z, b, rest, hB, hb⟩ := big_endian_bytes_first_nonzero key n hk hw hnz
  have hlenB : z + 1 + rest.length = 4 * n := by
    have := congrArg List.length hB
    rw [big_endian_bytes_length, List.length_take, Nat.min_eq_left hk] at this
    simp at this; omega
  have hspec := asn1_encode_spec have_assert key n buf z b rest (by omega) hk hbuf hB hb
  have hlen : (asn1_content b rest).length ≤ rest.length + 2 := by
    unfold asn1_content; split <;> simp
  have hbytes : ∀ x ∈ b :: rest, x < 256 := by
    intro x hx
    apply big_endian_bytes_lt (key.take n) x
    rw [hB]
    exact List.mem_append_right _ hx
  have hval : big_endian_value (b :: rest) = words_value key n := by
    rw [words_value_eq_rec key n hk,
      ← big_endian_value_bytes (key.take n) (mem_take_of_getD key n _ hw), hB,
      big_endian_value_replicate_zero]
  refine ⟨asn1_content b rest, (big_endian_bytes (key.take n) ++ buf.drop (4 * n + 2)).drop
    (asn1_content b rest).length, ?_, by omega, ?_, ?_, ?_, ?_⟩
  · rw [hspec, Nat.mod_eq_of_lt (by omega)]
  · intro x hx
    unfold asn1_content at hx
    split at hx
    · rcases List.mem_cons.mp hx with rfl | hx'
      · decide
      · exact hbytes x hx'
    · exact hbytes x hx
  · unfold asn1_content
    split
    · rw [big_endian_value_cons_zero, hval]
    · exact hval
  · unfold asn1_content
    split
    · exact ⟨0, b :: rest, rfl, by decide⟩
    · exact ⟨b, rest, rfl, by omega⟩
  · rintro ⟨c, tl, hc, hlt⟩
    unfold asn1_content at hc
    split at hc
    · simp only [List.cons.injEq, true_and] at hc
      omega
    · simp only [List.cons.injEq] at hc
      exact hb hc.1

/-- Witness for C10: the value `0x0080000001020304` held in two words. -/
theorem asn1_minimal_integer_witness :
    ∃ content tail,
      dtls_ec_key_asn1_from_uint32 false [0x01020304, 0x00800000] 8
          [7, 7, 7, 7, 7, 7, 7, 7, 7, 7, 7, 7]
        = some (((content.length + 2 : Nat) : Int),
            2 :: content.length :: (content ++ tail)) ∧
      content.length < 128 ∧
      (∀ x ∈ content, x < 256) ∧
      big_endian_value content = words_value [0x01020304, 0x00800000] (8 / 4) ∧
      (∃ c tl, content = c :: tl ∧ c < 128) ∧
      ¬ (∃ c tl, content = 0 :: c :: tl ∧ c < 128) :=
  asn1_minimal_integer false [0x01020304, 0x00800000] 8 [7, 7, 7, 7, 7, 7, 7, 7, 7, 7, 7, 7]
    (by decide) (by decide) (by decide) (by decide) (by decide)
    (by intro i hi
        have : i = 0 ∨ i = 1 := by omega
        rcases this with rfl | rfl <;> decide)
    ⟨0, by decide, by decide⟩

/-! ## Lemmas on `dtls_ec_key_to_uint32` and the round trips -/

theorem dtls_ec_key_to_uint32_loop_spec (key : List Nat) (c : Nat) :
    ∀ (off : Nat) (result : List Nat), off + c ≤ result.length →
      dtls_ec_key_to_uint32_loop key c off result
        = result.take off
          ++ (List.range c).reverse.map (fun i => dtls_uint32_to_int (key.drop (i * 4)))
          ++ result.drop (off + c) := by
  induction c with
  | zero =>
    intro off result _
    simp [dtls_ec_key_to_uint32_loop]
  | succ c ih =>
    intro off result hr
    have hlen : (memcpy result off [dtls_uint32_to_int (key.drop (c * 4))] 1).length
        = result.length := by
      simp only [memcpy, List.length_append, List.length_take, List.length_drop,
        List.length_cons, List.length_nil]
      omega
    have hl : (result.take off ++ [dtls_uint32_to_int (key.drop (c * 4))]).length = off + 1 := by
      simp only [List.length_append, List.length_take, List.length_cons, List.length_nil]
      omega
    rw [dtls_ec_key_to_uint32_loop, ih (off + 1) _ (by rw [hlen]; omega)]
    have h1 : (memcpy result off [dtls_uint32_to_int (key.drop (c * 4))] 1).take (off + 1)
        = result.take off ++ [dtls_uint32_to_int (key.drop (c * 4))] := by
      rw [memcpy, List.take_of_length_le (show [dtls_uint32_to_int (key.drop (c * 4))].length ≤ 1
        from le_refl _), List.take_append_of_le_length (by omega),
        List.take_of_length_le (by omega)]
    have h2 : (memcpy result off [dtls_uint32_to_int (key.drop (c * 4))] 1).drop (off + 1 + c)
        = result.drop (off + (c + 1)) := by
      rw [memcpy, List.take_of_length_le (show [dtls_uint32_to_int (key.drop (c * 4))].length ≤ 1
        from le_refl _), List.drop_append_eq_append_drop, hl,
        List.drop_of_length_le (by omega), List.nil_append, List.drop_drop]
      congr 1; omega
    rw [h1, h2, List.range_succ, List.reverse_append]
    simp only [List.reverse_cons, List.reverse_nil, List.nil_append, List.singleton_append,
      List.map_cons, List.append_assoc]

theorem dtls_ec_key_to_uint32_spec (key : List Nat) (key_size : Nat) (result : List Nat)
    (hn : key_size / 4 < 2147483648) (hr : key_size / 4 ≤ result.length) :
    dtls_ec_key_to_uint32 key key_size result
      = (List.range (key_size / 4)).reverse.map
          (fun i => dtls_uint32_to_int (key.drop (i * 4)))
        ++ result.drop (key_size / 4) := by
  have hc : (to_int (((key_size / 4 : Nat) : Int) - 1) + 1).toNat = key_size / 4 := by
    unfold to_int; omega
  unfold dtls_ec_key_to_uint32
  simp only [hc]
  rw [dtls_ec_key_to_uint32_loop_spec key _ 0 result (by omega)]
  simp

theorem dtls_ec_key_from_uint32_floor (key : List Nat) (key_size : Nat) (result : List Nat) :
    dtls_ec_key_from_uint32 key key_size result
      = dtls_ec_key_from_uint32 key (4 * (key_size / 4)) result := by
  have : 4 * (key_size / 4) / 4 = key_size / 4 := by omega
  unfold dtls_ec_key_from_uint32
  rw [this]

theorem uint32_of_bytes (w : Nat) (rest : List Nat) (h : w < 4294967296) :
    dtls_uint32_to_int (dtls_int_to_uint32 w ++ rest) = w := by
  simp only [dtls_uint32_to_int, dtls_int_to_uint32, List.cons_append, List.nil_append,
    List.getD_cons_zero, List.getD_cons_succ]
  omega

theorem bytes_of_uint32 (b0 b1 b2 b3 : Nat) (rest : List Nat)
    (h0 : b0 < 256) (h1 : b1 < 256) (h2 : b2 < 256) (h3 : b3 < 256) :
    dtls_int_to_uint32 (dtls_uint32_to_int (b0 :: b1 :: b2 :: b3 :: rest))
      = [b0, b1, b2, b3] := by
  simp only [dtls_uint32_to_int, dtls_int_to_uint32, List.getD_cons_zero, List.getD_cons_succ,
    List.cons.injEq, and_true]
  refine ⟨?_, ?_, ?_, ?_⟩ <;> omega

theorem dtls_uint32_to_int_lt (field : List Nat) : dtls_uint32_to_int field < 4294967296 := by
  unfold dtls_uint32_to_int
  omega
theorem range_reverse_succ (n : Nat) :
    (List.range (n + 1)).reverse = n :: (List.range n).reverse := by
  rw [List.range_succ, List.reverse_append]; rfl

theorem drop_four_cases (b : List Nat) (k : Nat) (h : k + 4 ≤ b.length) :
    ∃ b0 b1 b2 b3 rest, b.drop k = b0 :: b1 :: b2 :: b3 :: rest := by
  have hl : 4 ≤ (b.drop k).length := by rw [List.length_drop]; omega
  match hd : b.drop k, hl with
  | b0 :: b1 :: b2 :: b3 :: rest, _ => exact ⟨b0, b1, b2, b3, rest, rfl⟩

/-- The words read back from big-endian bytes give those bytes again. -/
theorem big_endian_bytes_of_read (b : List Nat) (n : Nat) :
    4 * n ≤ b.length → (∀ x ∈ b.take (4 * n), x < 256) →
      big_endian_bytes ((List.range n).reverse.map
          (fun i => dtls_uint32_to_int (b.drop (i * 4))))
        = b.take (4 * n) := by
  induction n with
  | zero => intro _ _; rfl
  | succ n ih =>
    intro hlen hbytes
    have e : 4 * (n + 1) = 4 * n + 4 := by ring
    have hsplit : b.take (4 * n + 4) = b.take (4 * n) ++ (b.drop (4 * n)).take 4 :=
      List.take_add b (4 * n) 4
    rw [e, hsplit] at hbytes
    rw [range_reverse_succ, List.map_cons, big_endian_bytes_cons,
      ih (by omega) (fun x hx => hbytes x (List.mem_append_left _ hx)), e, hsplit]
    congr 1
    obtain ⟨b0, b1, b2, b3, rest, hd⟩ := drop_four_cases b (4 * n) (by omega)
    rw [Nat.mul_comm n 4, hd]
    rw [hd] at hbytes
    have hb : ∀ x ∈ [b0, b1, b2, b3], x < 256 :=
      fun x hx => hbytes x (List.mem_append_right _ (by simpa using hx))
    exact bytes_of_uint32 b0 b1 b2 b3 rest (hb b0 (by simp)) (hb b1 (by simp))
      (hb b2 (by simp)) (hb b3 (by simp))

/-- The big-endian bytes of a word array read back give those words again. -/
theorem read_of_big_endian_bytes (ws : List Nat) :
    ∀ tail, (∀ w ∈ ws, w < 4294967296) →
      (List.range ws.length).reverse.map
          (fun i => dtls_uint32_to_int ((big_endian_bytes ws ++ tail).drop (i * 4)))
        = ws := by
  induction ws with
  | nil => intro _ _; rfl
  | cons w ws ih =>
    intro tail hw
    have hlen : (big_endian_bytes ws).length = ws.length * 4 := by
      rw [big_endian_bytes_length, Nat.mul_comm]
    rw [List.length_cons, range_reverse_succ, List.map_cons, big_endian_bytes_cons,
      List.append_assoc, List.drop_left' hlen,
      uint32_of_bytes w tail (hw w (List.mem_cons_self _ _)),
      ih (dtls_int_to_uint32 w ++ tail) (fun x hx => hw x (List.mem_cons_of_mem _ hx))]

/-- Where each word sits in the big-endian bytes: block `j` holds the word of
index `length - 1 - j`. -/
theorem big_endian_bytes_block (ws : List Nat) :
    ∀ tail j, j < ws.length →
      ((big_endian_bytes ws ++ tail).drop (4 * j)).take 4
        = dtls_int_to_uint32 (ws.getD (ws.length - 1 - j) 0) := by
  induction ws with
  | nil => intro _ j hj; simp at hj
  | cons w ws ih =>
    intro tail j hj
    have hlen : (big_endian_bytes ws).length = 4 * ws.length := big_endian_bytes_length ws
    rw [big_endian_bytes_cons, List.append_assoc]
    rcases Nat.lt_or_ge j ws.length with h | h
    · rw [ih _ j h]
      have : (w :: ws).length - 1 - j = (ws.length - 1 - j) + 1 := by
        simp only [List.length_cons]; omega
      rw [this, List.getD_cons_succ]
    · have hj' : j = ws.length := by simp only [List.length_cons] at hj; omega
      subst hj'
      rw [List.drop_left' hlen]
      have : (w :: ws).length - 1 - ws.length = 0 := by simp
      rw [this, List.getD_cons_zero, List.take_left' (show (dtls_int_to_uint32 w).length = 4
        from rfl)]

theorem dtls_uint32_to_int_eq_value (b0 b1 b2 b3 : Nat) (rest : List Nat)
    (h0 : b0 < 256) (h1 : b1 < 256) (h2 : b2 < 256) (h3 : b3 < 256) :
    dtls_uint32_to_int (b0 :: b1 :: b2 :: b3 :: rest) = big_endian_value [b0, b1, b2, b3] := by
  simp only [dtls_uint32_to_int, big_endian_value, List.getD_cons_zero, List.getD_cons_succ,
    List.foldl_cons, List.foldl_nil, Nat.mod_eq_of_lt h0, Nat.mod_eq_of_lt h1,
    Nat.mod_eq_of_lt h2, Nat.mod_eq_of_lt h3]
  ring
theorem dtls_uint32_to_int_take (b : List Nat) (m k : Nat) (h : k + 4 ≤ m) :
    dtls_uint32_to_int ((b.take m).drop k) = dtls_uint32_to_int (b.drop k) := by
  have hg : ∀ j, j < 4 → ((b.take m).drop k).getD j 0 = (b.drop k).getD j 0 := by
    intro j hj
    rw [List.getD_eq_getElem?_getD, List.getD_eq_getElem?_getD, List.getElem?_drop,
      List.getElem?_drop, List.getElem?_take_of_lt (by omega)]
  unfold dtls_uint32_to_int
  rw [hg 0 (by omega), hg 1 (by omega), hg 2 (by omega), hg 3 (by omega)]

theorem from_to_uint32 (b w0 out0 : List Nat) (key_size : Nat)
    (hint : key_size / 4 < 2147483648) (hb : 4 * (key_size / 4) ≤ b.length)
    (hbytes : ∀ x ∈ b.take (4 * (key_size / 4)), x < 256)
    (hw0 : key_size / 4 ≤ w0.length) (hout : 4 * (key_size / 4) ≤ out0.length) :
    dtls_ec_key_from_uint32 (dtls_ec_key_to_uint32 b key_size w0) key_size out0
      = b.take (4 * (key_size / 4)) ++ out0.drop (4 * (key_size / 4)) := by
  have hM : ((List.range (key_size / 4)).reverse.map
      (fun i => dtls_uint32_to_int (b.drop (i * 4)))).length = key_size / 4 := by simp
  rw [dtls_ec_key_to_uint32_spec b key_size w0 hint hw0, dtls_ec_key_from_uint32_floor,
    dtls_ec_key_from_uint32_spec _ (key_size / 4) out0 hint
      (by rw [List.length_append, hM]; omega) hout,
    List.take_left' hM, big_endian_bytes_of_read b (key_size / 4) hb hbytes]

theorem to_from_uint32 (w w0 out0 : List Nat) (key_size : Nat)
    (hint : key_size / 4 < 2147483648) (hw : key_size / 4 ≤ w.length)
    (hwords : ∀ x ∈ w.take (key_size / 4), x < 4294967296)
    (hw0 : key_size / 4 ≤ w0.length) (hout : 4 * (key_size / 4) ≤ out0.length) :
    dtls_ec_key_to_uint32 (dtls_ec_key_from_uint32 w key_size out0) key_size w0
      = w.take (key_size / 4) ++ w0.drop (key_size / 4) := by
  have hl : (w.take (key_size / 4)).length = key_size / 4 := by
    rw [List.length_take]; omega
  rw [dtls_ec_key_from_uint32_floor, dtls_ec_key_from_uint32_spec w (key_size / 4) out0 hint
      hw hout, dtls_ec_key_to_uint32_spec _ key_size w0 hint hw0]
  have := read_of_big_endian_bytes (w.take (key_size / 4)) (out0.drop (4 * (key_size / 4)))
    hwords
  rw [hl] at this
  rw [this]

/-! ## Theorems on the EC key conversions -/

/-- C11: byte/word conversion reverses byte order inside each word and word
order across the array.  For `key_size` a positive multiple of 4 with
`n = key_size / 4` in the range of the `int` loop counter,
`dtls_ec_key_to_uint32` sets `result[j]` to the big-endian value of
`key[4(n-1-j) .. 4(n-1-j)+4)` and `dtls_ec_key_from_uint32` writes word
`key[n-1-j]` big-endian at `result[4j .. 4j+4)`, for every `j < n`; hence the
big-endian value of the byte buffer is the sum of `word[j] * 2^(32 * j)`, in
both directions. -/
theorem ec_key_conversion_layout (key_size : Nat) (b w w0 out0 : List Nat)
    (hpos : 0 < key_size) (hmul : key_size % 4 = 0) (hint : key_size / 4 < 2147483648)
    (hb : key_size ≤ b.length) (hbytes : ∀ x ∈ b, x < 256)
    (hw : key_size / 4 ≤ w.length) (hwords : ∀ x ∈ w, x < 4294967296)
    (hw0 : key_size / 4 ≤ w0.length) (hout : key_size ≤ out0.length) :
    (∀ j, j < key_size / 4 →
      (dtls_ec_key_to_uint32 b key_size w0).getD j 0
        = big_endian_value (sub_bytes b (4 * (key_size / 4 - 1 - j))
            (4 * (key_size / 4 - 1 - j) + 4))) ∧
    (∀ j, j < key_size / 4 →
      sub_bytes (dtls_ec_key_from_uint32 w key_size out0) (4 * j) (4 * j + 4)
          = dtls_int_to_uint32 (w.getD (key_size / 4 - 1 - j) 0) ∧
      big_endian_value (sub_bytes (dtls_ec_key_from_uint32 w key_size out0) (4 * j) (4 * j + 4))
          = w.getD (key_size / 4 - 1 - j) 0) ∧
    big_endian_value ((dtls_ec_key_from_uint32 w key_size out0).take key_size)
      = words_value w (key_size / 4) ∧
    words_value (dtls_ec_key_to_uint32 b key_size w0) (key_size / 4)
      = big_endian_value (b.take key_size) := by
  obtain ⟨n, rfl⟩ : ∃ n, key_size = 4 * n := ⟨key_size / 4, by omega⟩
  have h4 : 4 * n / 4 = n := by omega
  rw [h4] at hint hw hw0 ⊢
  have hwt : ∀ x ∈ w.take n, x < 4294967296 := fun x hx => hwords x (List.mem_of_mem_take hx)
  have hbt : ∀ x ∈ b.take (4 * n), x < 256 := fun x hx => hbytes x (List.mem_of_mem_take hx)
  have hwl : (w.take n).length = n := by rw [List.length_take]; omega
  have hfrom := dtls_ec_key_from_uint32_spec w n out0 hint hw hout
  have hto := dtls_ec_key_to_uint32_spec b (4 * n) w0 (by rw [h4]; exact hint)
    (by rw [h4]; exact hw0)
  rw [h4] at hto
  have hMlen : ((List.range n).reverse.map
      (fun i => dtls_uint32_to_int (b.drop (i * 4)))).length = n := by simp
  refine ⟨?_, ?_, ?_, ?_⟩
  · intro j hj
    rw [hto, List.getD_eq_getElem?_getD, List.getElem?_append_left (by rw [hMlen]; exact hj),
      List.getElem?_eq_getElem (by rw [hMlen]; exact hj)]
    simp only [Option.getD_some, List.getElem_map, List.getElem_reverse, List.length_range,
      List.getElem_range]
    obtain ⟨b0, b1, b2, b3, rest, hd⟩ := drop_four_cases b (4 * (n - 1 - j)) (by omega)
    have hs : sub_bytes b (4 * (n - 1 - j)) (4 * (n - 1 - j) + 4) = [b0, b1, b2, b3] := by
      rw [sub_bytes_eq_take_drop b _ _ (by omega), hd, Nat.add_sub_cancel_left]
      rfl
    have hmem : ∀ x ∈ [b0, b1, b2, b3], x < 256 := by
      intro x hx
      apply hbytes x
      apply List.mem_of_mem_drop (n := 4 * (n - 1 - j))
      rw [hd]
      simp only [List.mem_cons, List.mem_singleton, List.not_mem_nil, or_false] at hx ⊢
      tauto
    rw [hs, Nat.mul_comm (n - 1 - j) 4, hd]
    exact dtls_uint32_to_int_eq_value b0 b1 b2 b3 rest (hmem b0 (by simp)) (hmem b1 (by simp))
      (hmem b2 (by simp)) (hmem b3 (by simp))
  · intro j hj
    have hblock := big_endian_bytes_block (w.take n) (out0.drop (4 * n)) j (by rw [hwl]; exact hj)
    have hget : (w.take n).getD (n - 1 - j) 0 = w.getD (n - 1 - j) 0 := by
      rw [List.getD_eq_getElem?_getD, List.getD_eq_getElem?_getD,
        List.getElem?_take_of_lt (by omega)]
    have hlen : 4 * j + 4 ≤ (dtls_ec_key_from_uint32 w (4 * n) out0).length := by
      rw [hfrom, List.length_append, big_endian_bytes_length, hwl, List.length_drop]; omega
    have hs : sub_bytes (dtls_ec_key_from_uint32 w (4 * n) out0) (4 * j) (4 * j + 4)
        = dtls_int_to_uint32 (w.getD (n - 1 - j) 0) := by
      rw [sub_bytes_eq_take_drop _ _ _ hlen, hfrom, Nat.add_sub_cancel_left, hblock, hwl, hget]
    refine ⟨hs, ?_⟩
    rw [hs]
    apply big_endian_value_uint32
    rw [← hget]
    rw [List.getD_eq_getElem?_getD, List.getElem?_eq_getElem (by rw [hwl]; omega)]
    exact hwt _ (List.getElem_mem _)
  · rw [hfrom, List.take_left' (by rw [big_endian_bytes_length, hwl]),
      big_endian_value_bytes _ hwt, words_value_eq_rec w n hw]
  · have hrt := big_endian_bytes_of_read b n hb hbt
    have hwlt : ∀ x ∈ (List.range n).reverse.map
        (fun i => dtls_uint32_to_int (b.drop (i * 4))), x < 4294967296 := by
      intro x hx
      obtain ⟨i, _, rfl⟩ := List.mem_map.mp hx
      exact dtls_uint32_to_int_lt _
    rw [hto, ← hrt, big_endian_value_bytes _ hwlt,
      words_value_eq_rec _ n (by rw [List.length_append, hMlen]; omega),
      List.take_left' hMlen]
/-- Witness for C11: 8 bytes and 2 words. -/
theorem ec_key_conversion_layout_witness :
    (∀ j, j < 8 / 4 →
      (dtls_ec_key_to_uint32 [1, 2, 3, 4, 5, 6, 7, 8] 8 [0, 0]).getD j 0
        = big_endian_value (sub_bytes [1, 2, 3, 4, 5, 6, 7, 8] (4 * (8 / 4 - 1 - j))
            (4 * (8 / 4 - 1 - j) + 4))) ∧
    (∀ j, j < 8 / 4 →
      sub_bytes (dtls_ec_key_from_uint32 [0x05060708, 0x01020304] 8 [9, 9, 9, 9, 9, 9, 9, 9])
            (4 * j) (4 * j + 4)
          = dtls_int_to_uint32 ([0x05060708, 0x01020304].getD (8 / 4 - 1 - j) 0) ∧
      big_endian_value (sub_bytes
            (dtls_ec_key_from_uint32 [0x05060708, 0x01020304] 8 [9, 9, 9, 9, 9, 9, 9, 9])
            (4 * j) (4 * j + 4))
          = [0x05060708, 0x01020304].getD (8 / 4 - 1 - j) 0) ∧
    big_endian_value
        ((dtls_ec_key_from_uint32 [0x05060708, 0x01020304] 8 [9, 9, 9, 9, 9, 9, 9, 9]).take 8)
      = words_value [0x05060708, 0x01020304] (8 / 4) ∧
    words_value (dtls_ec_key_to_uint32 [1, 2, 3, 4, 5, 6, 7, 8] 8 [0, 0]) (8 / 4)
      = big_endian_value ([1, 2, 3, 4, 5, 6, 7, 8].take 8) :=
  ec_key_conversion_layout 8 [1, 2, 3, 4, 5, 6, 7, 8] [0x05060708, 0x01020304] [0, 0]
    [9, 9, 9, 9, 9, 9, 9, 9] (by decide) (by decide) (by decide) (by decide) (by decide)
    (by decide) (by decide) (by decide) (by decide)

/-- C19: the two EC conversions are mutually inverse.  With `n = key_size / 4`
in the range of the `int` loop counter: for `key_size` a multiple of 4, a
buffer `b` of `key_size` bytes and an array `w` of `n` 32-bit words,
`from(to(b)) = b` and `to(from(w)) = w`.  For any `key_size`, only the first
`4 * n` bytes are read by `dtls_ec_key_to_uint32` and written by
`dtls_ec_key_from_uint32`: the trailing `key_size mod 4` bytes of the output
stay what the output buffer held, so when `key_size` is not a multiple of 4 and
those bytes differ from the trailing bytes of `b`, the round trip does not give
`b` back. -/
theorem ec_key_conversions_inverse (key_size : Nat) (b w w0 out0 : List Nat)
    (hint : key_size / 4 < 2147483648)
    (hb : b.length = key_size) (hbytes : ∀ x ∈ b, x < 256)
    (hw : w.length = key_size / 4) (hwords : ∀ x ∈ w, x < 4294967296)
    (hw0 : w0.length = key_size / 4) (hout : out0.length = key_size) :
    (key_size % 4 = 0 →
      dtls_ec_key_from_uint32 (dtls_ec_key_to_uint32 b key_size w0) key_size out0 = b ∧
      dtls_ec_key_to_uint32 (dtls_ec_key_from_uint32 w key_size out0) key_size w0 = w) ∧
    dtls_ec_key_from_uint32 (dtls_ec_key_to_uint32 b key_size w0) key_size out0
      = b.take (4 * (key_size / 4)) ++ out0.drop (4 * (key_size / 4)) ∧
    (∀ b', b'.take (4 * (key_size / 4)) = b.take (4 * (key_size / 4)) →
      dtls_ec_key_to_uint32 b' key_size w0 = dtls_ec_key_to_uint32 b key_size w0) ∧
    (key_size % 4 ≠ 0 → out0.drop (4 * (key_size / 4)) ≠ b.drop (4 * (key_size / 4)) →
      dtls_ec_key_from_uint32 (dtls_ec_key_to_uint32 b key_size w0) key_size out0 ≠ b) := by
  have hfloor : 4 * (key_size / 4) ≤ key_size := by omega
  have hrt := from_to_uint32 b w0 out0 key_size hint (by omega)
    (fun x hx => hbytes x (List.mem_of_mem_take hx)) (by omega) (by omega)
  refine ⟨?_, hrt, ?_, ?_⟩
  · intro hmul
    have e : 4 * (key_size / 4) = key_size := by omega
    constructor
    · rw [hrt, e, List.take_of_length_le (by omega), List.drop_of_length_le (by omega),
        List.append_nil]
    · rw [to_from_uint32 w w0 out0 key_size hint (by omega)
        (fun x hx => hwords x (List.mem_of_mem_take hx)) (by omega) (by omega),
        List.take_of_length_le (by omega), List.drop_of_length_le (by omega), List.append_nil]
  · intro b' hb'
    have hmap : (List.range (key_size / 4)).reverse.map
          (fun i => dtls_uint32_to_int (b'.drop (i * 4)))
        = (List.range (key_size / 4)).reverse.map
          (fun i => dtls_uint32_to_int (b.drop (i * 4))) := by
      apply List.map_congr_left
      intro i hi
      have hi' : i < key_size / 4 := by
        rw [List.mem_reverse, List.mem_range] at hi; exact hi
      rw [← dtls_uint32_to_int_take b' (4 * (key_size / 4)) (i * 4) (by omega),
        ← dtls_uint32_to_int_take b (4 * (key_size / 4)) (i * 4) (by omega), hb']
    rw [dtls_ec_key_to_uint32_spec b' key_size w0 hint (by omega),
      dtls_ec_key_to_uint32_spec b key_size w0 hint (by omega), hmap]
  · intro _ hne heq
    rw [hrt] at heq
    apply hne
    have := congrArg (List.drop (4 * (key_size / 4))) heq
    rw [List.drop_left' (by rw [List.length_take]; omega)] at this
    exact this

/-- Witness for C19: `key_size = 6`, where only four bytes take part. -/
theorem ec_key_conversions_inverse_witness :
    (6 % 4 = 0 →
      dtls_ec_key_from_uint32 (dtls_ec_key_to_uint32 [1, 2, 3, 4, 5, 6] 6 [0]) 6
          [9, 9, 9, 9, 9, 9] = [1, 2, 3, 4, 5, 6] ∧
      dtls_ec_key_to_uint32 (dtls_ec_key_from_uint32 [0x01020304] 6 [9, 9, 9, 9, 9, 9]) 6 [0]
          = [0x01020304]) ∧
    dtls_ec_key_from_uint32 (dtls_ec_key_to_uint32 [1, 2, 3, 4, 5, 6] 6 [0]) 6
        [9, 9, 9, 9, 9, 9]
      = [1, 2, 3, 4, 5, 6].take (4 * (6 / 4)) ++ [9, 9, 9, 9, 9, 9].drop (4 * (6 / 4)) ∧
    (∀ b', b'.take (4 * (6 / 4)) = [1, 2, 3, 4, 5, 6].take (4 * (6 / 4)) →
      dtls_ec_key_to_uint32 b' 6 [0] = dtls_ec_key_to_uint32 [1, 2, 3, 4, 5, 6] 6 [0]) ∧
    (6 % 4 ≠ 0 → [9, 9, 9, 9, 9, 9].drop (4 * (6 / 4)) ≠ [1, 2, 3, 4, 5, 6].drop (4 * (6 / 4)) →
      dtls_ec_key_from_uint32 (dtls_ec_key_to_uint32 [1, 2, 3, 4, 5, 6] 6 [0]) 6
        [9, 9, 9, 9, 9, 9] ≠ [1, 2, 3, 4, 5, 6]) :=
  ec_key_conversions_inverse 6 [1, 2, 3, 4, 5, 6] [0x01020304] [0] [9, 9, 9, 9, 9, 9]
    (by decide) (by decide) (by decide) (by decide) (by decide) (by decide) (by decide)

/-! ## Theorems on the pre-master secrets -/

theorem dtls_ec_key_from_uint32_bytes (w out : List Nat) (key_size : Nat)
    (hint : key_size / 4 < 2147483648) (hw : key_size / 4 ≤ w.length)
    (hout : 4 * (key_size / 4) ≤ out.length) :
    dtls_ec_key_from_uint32 w key_size out
      = big_endian_bytes (w.take (key_size / 4)) ++ out.drop (4 * (key_size / 4)) := by
  rw [dtls_ec_key_from_uint32_floor, dtls_ec_key_from_uint32_spec w (key_size / 4) out hint hw
    hout]

/-- C12: insufficient output capacity is rejected without partial output.
`dtls_ecdh_pre_master_secret` returns -1 and leaves `result` as it was exactly
when `result_len < key_size`; otherwise it returns `key_size` and the first
`4 * (key_size / 4)` bytes of `result` are the big-endian form of the
`key_size / 4` least-significant words of the x-coordinate that `ecc_ecdh`
computed from the converted inputs, which for the curve's `key_size = 32` is
the whole x-coordinate in `result[0..32)`; the y-coordinate is not output.
`dtls_psk_pre_master_secret` returns -1 and leaves `result` as it was exactly
when `result_len < 2 * (2 + keylen)`, and otherwise returns
`2 * (2 + keylen)`. -/
theorem pre_master_secret_capacity (E : ecc_primitives) (priv0 pub_x0 pub_y0 : List Nat)
    (priv_key pub_key_x pub_key_y : List Nat) (key_size : Nat)
    (result : List Nat) (result_len : Nat)
    (key : List Nat) (keylen : Nat) (psk_result : List Nat) (psk_result_len : Nat)
    (hsize : key_size / 4 ≤ 8)
    (hx : key_size / 4 ≤ (E.ecc_ecdh (dtls_ec_key_to_uint32 pub_key_x key_size pub_x0)
      (dtls_ec_key_to_uint32 pub_key_y key_size pub_y0)
      (dtls_ec_key_to_uint32 priv_key key_size priv0)).1.length)
    (hcap : result_len ≤ result.length)
    (hpsk : 2 * (2 + keylen) < 2147483648) :
    (result_len < key_size →
      dtls_ecdh_pre_master_secret E priv0 pub_x0 pub_y0 priv_key pub_key_x pub_key_y key_size
        result result_len = (-1, result)) ∧
    (key_size ≤ result_len →
      dtls_ecdh_pre_master_secret E priv0 pub_x0 pub_y0 priv_key pub_key_x pub_key_y key_size
        result result_len
        = ((key_size : Int),
            big_endian_bytes ((E.ecc_ecdh (dtls_ec_key_to_uint32 pub_key_x key_size pub_x0)
                (dtls_ec_key_to_uint32 pub_key_y key_size pub_y0)
                (dtls_ec_key_to_uint32 priv_key key_size priv0)).1.take (key_size / 4))
              ++ result.drop (4 * (key_size / 4)))) ∧
    (key_size = 32 → key_size ≤ result_len →
      (E.ecc_ecdh (dtls_ec_key_to_uint32 pub_key_x key_size pub_x0)
          (dtls_ec_key_to_uint32 pub_key_y key_size pub_y0)
          (dtls_ec_key_to_uint32 priv_key key_size priv0)).1.length = 8 →
      (dtls_ecdh_pre_master_secret E priv0 pub_x0 pub_y0 priv_key pub_key_x pub_key_y key_size
          result result_len).2.take 32
        = big_endian_bytes (E.ecc_ecdh (dtls_ec_key_to_uint32 pub_key_x key_size pub_x0)
            (dtls_ec_key_to_uint32 pub_key_y key_size pub_y0)
            (dtls_ec_key_to_uint32 priv_key key_size priv0)).1) ∧
    ((dtls_ecdh_pre_master_secret E priv0 pub_x0 pub_y0 priv_key pub_key_x pub_key_y key_size
        result result_len).1 = -1 ↔ result_len < key_size) ∧
    (psk_result_len < 2 * (2 + keylen) →
      dtls_psk_pre_master_secret key keylen psk_result psk_result_len = (-1, psk_result)) ∧
    (2 * (2 + keylen) ≤ psk_result_len →
      (dtls_psk_pre_master_secret key keylen psk_result psk_result_len).1
        = ((2 * (2 + keylen) : Nat) : Int)) ∧
    ((dtls_psk_pre_master_secret key keylen psk_result psk_result_len).1 = -1
      ↔ psk_result_len < 2 * (2 + keylen)) := by
  have hks : key_size < 36 := by omega
  have hret : to_int (key_size : Int) = (key_size : Int) := to_int_of_nat_small _ (by omega)
  have hgood : key_size ≤ result_len →
      dtls_ecdh_pre_master_secret E priv0 pub_x0 pub_y0 priv_key pub_key_x pub_key_y key_size
        result result_len
        = ((key_size : Int),
            big_endian_bytes ((E.ecc_ecdh (dtls_ec_key_to_uint32 pub_key_x key_size pub_x0)
                (dtls_ec_key_to_uint32 pub_key_y key_size pub_y0)
                (dtls_ec_key_to_uint32 priv_key key_size priv0)).1.take (key_size / 4))
              ++ result.drop (4 * (key_size / 4))) := by
    intro h
    unfold dtls_ecdh_pre_master_secret
    rw [if_neg (by omega)]
    simp only [hret]
    rw [dtls_ec_key_from_uint32_bytes _ result key_size (by omega) hx (by omega)]
  have hbad : result_len < key_size →
      dtls_ecdh_pre_master_secret E priv0 pub_x0 pub_y0 priv_key pub_key_x pub_key_y key_size
        result result_len = (-1, result) := by
    intro h
    unfold dtls_ecdh_pre_master_secret
    rw [if_pos h]
  have hsz : to_size_t (2 * (2 + (keylen : Int))) = ((2 * (2 + keylen) : Nat) : Int) := by
    unfold to_size_t; omega
  have hpgood : 2 * (2 + keylen) ≤ psk_result_len →
      (dtls_psk_pre_master_secret key keylen psk_result psk_result_len).1
        = ((2 * (2 + keylen) : Nat) : Int) := by
    intro h
    unfold dtls_psk_pre_master_secret
    rw [hsz, if_neg (by omega)]
    exact to_int_of_nat_small _ hpsk
  have hpbad : psk_result_len < 2 * (2 + keylen) →
      dtls_psk_pre_master_secret key keylen psk_result psk_result_len = (-1, psk_result) := by
    intro h
    unfold dtls_psk_pre_master_secret
    rw [hsz, if_pos (by omega)]
  refine ⟨hbad, hgood, ?_, ?_, hpbad, hpgood, ?_⟩
  · intro h32 hle hlen
    rw [hgood hle]
    subst h32
    have e : (32 : Nat) / 4 = 8 := by norm_num
    rw [e, List.take_of_length_le (le_of_eq hlen)]
    exact List.take_left' (by rw [big_endian_bytes_length, hlen])
  · constructor
    · intro h
      by_contra hnot
      rw [hgood (by omega)] at h
      simp only at h
      omega
    · intro h
      rw [hbad h]
  · constructor
    · intro h
      by_contra hnot
      rw [hpgood (by omega)] at h
      omega
    · intro h
      rw [hpbad h]

/-- Witness for C12: the curve's key size 32 with a buffer of exactly 32 bytes,
and a 3-byte pre-shared key with a buffer of exactly 10 bytes. -/
theorem pre_master_secret_capacity_witness :
    (dtls_ecdh_pre_master_secret toy_curve (List.replicate 8 0) (List.replicate 8 0)
        (List.replicate 8 0) (List.replicate 32 1) (List.replicate 32 2) (List.replicate 32 3) 32
        (List.replicate 32 7) 32).1 = ((32 : Nat) : Int) ∧
    (dtls_psk_pre_master_secret [1, 2, 3] 3 (List.replicate 10 7) 10).1
      = ((2 * (2 + 3) : Nat) : Int) :=
  have h := pre_master_secret_capacity toy_curve (List.replicate 8 0) (List.replicate 8 0)
    (List.replicate 8 0) (List.replicate 32 1) (List.replicate 32 2) (List.replicate 32 3) 32
    (List.replicate 32 7) 32 [1, 2, 3] 3 (List.replicate 10 7) 10
    (by decide) (by decide) (by decide) (by decide)
  ⟨congrArg Prod.fst (h.2.1 (by decide)), h.2.2.2.2.2.1 (by decide)⟩
/-! ## Theorems on key generation and signing -/

theorem prng_before_draw (dtls_prng : Nat → List Nat → Nat → List Nat) (key_size : Nat)
    (buf0 : List Nat) (k : Nat) :
    dtls_prng k (before_draw dtls_prng key_size buf0 k) key_size
      = candidate dtls_prng key_size buf0 k := by
  cases k <;> rfl

/-- Every run of the key generation loop that returns stops at the first valid
candidate from where it started. -/
theorem generate_key_loop_sound (E : ecc_primitives)
    (dtls_prng : Nat → List Nat → Nat → List Nat) (key_size : Nat) (priv0 : List Nat)
    (fuel : Nat) :
    ∀ k d p,
      dtls_ecdsa_generate_key_loop E dtls_prng key_size fuel k
          (before_draw dtls_prng key_size priv0 k) = some (d, p) →
      ∃ m, k ≤ m ∧ d = m + 1 ∧ p = candidate dtls_prng key_size priv0 m ∧
        E.ecc_is_valid_key (candidate dtls_prng key_size priv0 m) = true ∧
        ∀ i, k ≤ i → i < m →
          E.ecc_is_valid_key (candidate dtls_prng key_size priv0 i) = false := by
  induction fuel with
  | zero => intro k d p h; simp [dtls_ecdsa_generate_key_loop] at h
  | succ fuel ih =>
    intro k d p h
    rw [dtls_ecdsa_generate_key_loop] at h
    simp only [prng_before_draw] at h
    by_cases hv : E.ecc_is_valid_key (candidate dtls_prng key_size priv0 k) = true
    · rw [if_pos hv] at h
      simp only [Option.some.injEq, Prod.mk.injEq] at h
      exact ⟨k, le_refl _, h.1.symm, h.2.symm, hv, fun i h1 h2 => by omega⟩
    · rw [if_neg hv] at h
      obtain ⟨m, hm, hd, hp, hvm, hrej⟩ := ih (k + 1) d p h
      refine ⟨m, by omega, hd, hp, hvm, ?_⟩
      intro i h1 h2
      rcases Nat.eq_or_lt_of_le h1 with rfl | hlt
      · simpa using hv
      · exact hrej i hlt h2

/-- With enough iterations the key generation loop returns at the first valid
candidate. -/
theorem generate_key_loop_complete (E : ecc_primitives)
    (dtls_prng : Nat → List Nat → Nat → List Nat) (key_size : Nat) (priv0 : List Nat)
    (m : Nat) (hvalid : E.ecc_is_valid_key (candidate dtls_prng key_size priv0 m) = true)
    (fuel : Nat) :
    ∀ k, k ≤ m → m - k < fuel →
      (∀ i, k ≤ i → i < m →
        E.ecc_is_valid_key (candidate dtls_prng key_size priv0 i) = false) →
      dtls_ecdsa_generate_key_loop E dtls_prng key_size fuel k
          (before_draw dtls_prng key_size priv0 k)
        = some (m + 1, candidate dtls_prng key_size priv0 m) := by
  induction fuel with
  | zero => intro k _ h _; omega
  | succ fuel ih =>
    intro k hk hf hrej
    rw [dtls_ecdsa_generate_key_loop]
    simp only [prng_before_draw]
    rcases Nat.eq_or_lt_of_le hk with rfl | hlt
    · rw [if_pos hvalid]
    · rw [if_neg (by rw [hrej k (le_refl _) hlt]; simp)]
      exact ih (k + 1) hlt (by omega) (fun i h1 h2 => hrej i (by omega) h2)
theorem toy_candidate_length (key_size : Nat) (buf0 : List Nat) (k : Nat) :
    (candidate toy_prng key_size buf0 k).length = buf0.length := by
  induction k with
  | zero => simp [candidate, toy_prng]
  | succ k ih => simp [candidate, toy_prng, ih]

/-- C13: key generation returns only valid scalars.  With the random source a
sequence of candidates (what `priv` holds after each draw), every run of
`dtls_ecdsa_generate_key` that returns has made `m + 1` draws, where candidate
`m` is the first that `ecc_is_valid_key` accepts (one draw per rejected
candidate plus one), and its outputs are the big-endian bytes of the
`key_size / 4` words of that candidate and of `ecc_gen_pub_key` applied to it;
and when a first valid candidate `m` exists, every run with more than `m` loop
iterations returns exactly that. -/
theorem generate_key_first_valid (E : ecc_primitives)
    (dtls_prng : Nat → List Nat → Nat → List Nat) (priv0 : List Nat)
    (priv_key pub_key_x pub_key_y : List Nat) (key_size : Nat)
    (hmul : key_size % 4 = 0) (hsize : key_size / 4 ≤ 8)
    (hcand : ∀ k, key_size / 4 ≤ (candidate dtls_prng key_size priv0 k).length)
    (hpub : ∀ k,
      key_size / 4 ≤ (E.ecc_gen_pub_key (candidate dtls_prng key_size priv0 k)).1.length ∧
      key_size / 4 ≤ (E.ecc_gen_pub_key (candidate dtls_prng key_size priv0 k)).2.length)
    (hsk : key_size ≤ priv_key.length) (hpx : key_size ≤ pub_key_x.length)
    (hpy : key_size ≤ pub_key_y.length) :
    (∀ fuel draws sk px py,
      dtls_ecdsa_generate_key E dtls_prng fuel priv0 priv_key pub_key_x pub_key_y key_size
        = some (draws, sk, px, py) →
      ∃ m, draws = m + 1 ∧
        E.ecc_is_valid_key (candidate dtls_prng key_size priv0 m) = true ∧
        (∀ i, i < m → E.ecc_is_valid_key (candidate dtls_prng key_size priv0 i) = false) ∧
        sk = big_endian_bytes ((candidate dtls_prng key_size priv0 m).take (key_size / 4))
              ++ priv_key.drop key_size ∧
        px = big_endian_bytes
                ((E.ecc_gen_pub_key (candidate dtls_prng key_size priv0 m)).1.take (key_size / 4))
              ++ pub_key_x.drop key_size ∧
        py = big_endian_bytes
                ((E.ecc_gen_pub_key (candidate dtls_prng key_size priv0 m)).2.take (key_size / 4))
              ++ pub_key_y.drop key_size) ∧
    (∀ m, E.ecc_is_valid_key (candidate dtls_prng key_size priv0 m) = true →
      (∀ i, i < m → E.ecc_is_valid_key (candidate dtls_prng key_size priv0 i) = false) →
      ∀ fuel, m < fuel →
        dtls_ecdsa_generate_key E dtls_prng fuel priv0 priv_key pub_key_x pub_key_y key_size
          = some (m + 1,
              big_endian_bytes ((candidate dtls_prng key_size priv0 m).take (key_size / 4))
                ++ priv_key.drop key_size,
              big_endian_bytes ((E.ecc_gen_pub_key
                  (candidate dtls_prng key_size priv0 m)).1.take (key_size / 4))
                ++ pub_key_x.drop key_size,
              big_endian_bytes ((E.ecc_gen_pub_key
                  (candidate dtls_prng key_size priv0 m)).2.take (key_size / 4))
                ++ pub_key_y.drop key_size)) := by
  have e : 4 * (key_size / 4) = key_size := by omega
  have hconv : ∀ (w out : List Nat), key_size / 4 ≤ w.length → key_size ≤ out.length →
      dtls_ec_key_from_uint32 w key_size out
        = big_endian_bytes (w.take (key_size / 4)) ++ out.drop key_size := by
    intro w out hw hout
    have := dtls_ec_key_from_uint32_bytes w out key_size (by omega) hw (by omega)
    rw [e] at this
    exact this
  constructor
  · intro fuel draws sk px py h
    unfold dtls_ecdsa_generate_key at h
    cases hloop : dtls_ecdsa_generate_key_loop E dtls_prng key_size fuel 0 priv0 with
    | none => rw [hloop] at h; simp at h
    | some r =>
      obtain ⟨d, p⟩ := r
      rw [hloop] at h
      simp only [Option.some.injEq, Prod.mk.injEq] at h
      obtain ⟨hd, hsk', hpx', hpy'⟩ := h
      obtain ⟨m, -, hdm, hp, hv, hrej⟩ :=
        generate_key_loop_sound E dtls_prng key_size priv0 fuel 0 d p hloop
      subst hp
      refine ⟨m, by omega, hv, fun i hi => hrej i (Nat.zero_le _) hi, ?_, ?_, ?_⟩
      · rw [← hsk', hconv _ _ (hcand m) hsk]
      · rw [← hpx', hconv _ _ (hpub m).1 hpx]
      · rw [← hpy', hconv _ _ (hpub m).2 hpy]
  · intro m hv hrej fuel hf
    have hloop := generate_key_loop_complete E dtls_prng key_size priv0 m hv fuel 0
      (Nat.zero_le _) (by omega) (fun i _ hi => hrej i hi)
    unfold dtls_ecdsa_generate_key
    have hb : before_draw dtls_prng key_size priv0 0 = priv0 := rfl
    rw [hb] at hloop
    rw [hloop]
    simp only
    rw [hconv _ _ (hcand m) hsk, hconv _ _ (hpub m).1 hpx, hconv _ _ (hpub m).2 hpy]

/-- Witness for C13: the toy source rejects its first candidate and the toy
curve accepts the second, so two draws are made. -/
theorem generate_key_first_valid_witness :
    (dtls_ecdsa_generate_key toy_curve toy_prng 5 (List.replicate 8 0) (List.replicate 32 7)
        (List.replicate 32 7) (List.replicate 32 7) 32).map Prod.fst = some (1 + 1) :=
  have h := generate_key_first_valid toy_curve toy_prng (List.replicate 8 0)
    (List.replicate 32 7) (List.replicate 32 7) (List.replicate 32 7) 32
    (by decide) (by decide)
    (fun k => by rw [toy_candidate_length]; decide)
    (fun k => by
      simp only [toy_curve, List.length_map, toy_candidate_length]
      decide)
    (by decide) (by decide) (by decide)
  congrArg (Option.map Prod.fst)
    (h.2 1 (by decide) (fun i hi => by
      have : i = 0 := by omega
      subst this; decide) 5 (by decide))
/-- Every run of the signing loop that returns stops at the first nonce for
which the signer reports 0, having called the signer once per nonce drawn. -/
theorem create_sig_hash_loop_sound (E : ecc_primitives)
    (dtls_prng : Nat → List Nat → Nat → List Nat) (key_size : Nat) (priv hash randv0 : List Nat)
    (fuel : Nat) :
    ∀ k r s calls d r' s' calls',
      dtls_ecdsa_create_sig_hash_loop E dtls_prng key_size priv hash fuel k
          (before_draw dtls_prng key_size randv0 k) r s calls = some (d, r', s', calls') →
      ∃ m, k ≤ m ∧ d = m + 1 ∧
        (E.ecc_ecdsa_sign priv hash (candidate dtls_prng key_size randv0 m)).1 = 0 ∧
        (∀ i, k ≤ i → i < m →
          (E.ecc_ecdsa_sign priv hash (candidate dtls_prng key_size randv0 i)).1 ≠ 0) ∧
        r' = (E.ecc_ecdsa_sign priv hash (candidate dtls_prng key_size randv0 m)).2.1 ∧
        s' = (E.ecc_ecdsa_sign priv hash (candidate dtls_prng key_size randv0 m)).2.2 ∧
        calls' = calls ++ (List.range' k (m + 1 - k)).map
          (fun i => (priv, hash, candidate dtls_prng key_size randv0 i)) := by
  induction fuel with
  | zero => intro k r s calls d r' s' calls' h; simp [dtls_ecdsa_create_sig_hash_loop] at h
  | succ fuel ih =>
    intro k r s calls d r' s' calls' h
    rw [dtls_ecdsa_create_sig_hash_loop] at h
    simp only [prng_before_draw] at h
    by_cases hv : (E.ecc_ecdsa_sign priv hash (candidate dtls_prng key_size randv0 k)).1 = 0
    · rw [if_neg (by simpa using hv)] at h
      simp only [Option.some.injEq, Prod.mk.injEq] at h
      obtain ⟨h1, h2, h3, h4⟩ := h
      refine ⟨k, le_refl _, h1.symm, hv, fun i h1 h2 => by omega, h2.symm, h3.symm, ?_⟩
      rw [← h4, show k + 1 - k = 1 by omega]
      rfl
    · rw [if_pos hv] at h
      obtain ⟨m, hm, hd, hz, hrej, hr, hs, hc⟩ := ih (k + 1) _ _ _ d r' s' calls' h
      refine ⟨m, by omega, hd, hz, ?_, hr, hs, ?_⟩
      · intro i h1 h2
        rcases Nat.eq_or_lt_of_le h1 with rfl | hlt
        · exact hv
        · exact hrej i hlt h2
      · rw [hc, List.append_assoc, show m + 1 - k = (m + 1 - (k + 1)) + 1 by omega,
          List.range'_succ]
        rfl

/-- With enough iterations the signing loop returns at the first nonce for which
the signer reports 0. -/
theorem create_sig_hash_loop_complete (E : ecc_primitives)
    (dtls_prng : Nat → List Nat → Nat → List Nat) (key_size : Nat) (priv hash randv0 : List Nat)
    (m : Nat)
    (hok : (E.ecc_ecdsa_sign priv hash (candidate dtls_prng key_size randv0 m)).1 = 0)
    (fuel : Nat) :
    ∀ k r s calls, k ≤ m → m - k < fuel →
      (∀ i, k ≤ i → i < m →
        (E.ecc_ecdsa_sign priv hash (candidate dtls_prng key_size randv0 i)).1 ≠ 0) →
      dtls_ecdsa_create_sig_hash_loop E dtls_prng key_size priv hash fuel k
          (before_draw dtls_prng key_size randv0 k) r s calls
        = some (m + 1,
            (E.ecc_ecdsa_sign priv hash (candidate dtls_prng key_size randv0 m)).2.1,
            (E.ecc_ecdsa_sign priv hash (candidate dtls_prng key_size randv0 m)).2.2,
            calls ++ (List.range' k (m + 1 - k)).map
              (fun i => (priv, hash, candidate dtls_prng key_size randv0 i))) := by
  induction fuel with
  | zero => intro k _ _ _ _ h _; omega
  | succ fuel ih =>
    intro k r s calls hk hf hrej
    rw [dtls_ecdsa_create_sig_hash_loop]
    simp only [prng_before_draw]
    rcases Nat.eq_or_lt_of_le hk with rfl | hlt
    · rw [if_neg (by simpa using hok), show k + 1 - k = 1 by omega]
      rfl
    · have hstep := ih (k + 1)
        (E.ecc_ecdsa_sign priv hash (candidate dtls_prng key_size randv0 k)).2.1
        (E.ecc_ecdsa_sign priv hash (candidate dtls_prng key_size randv0 k)).2.2
        (calls ++ [(priv, hash, candidate dtls_prng key_size randv0 k)])
        hlt (by omega) (fun i h1 h2 => hrej i (by omega) h2)
      rw [show before_draw dtls_prng key_size randv0 (k + 1)
        = candidate dtls_prng key_size randv0 k from rfl] at hstep
      rw [if_pos (hrej k (le_refl _) hlt), hstep, List.append_assoc,
        show m + 1 - k = (m + 1 - (k + 1)) + 1 by omega, List.range'_succ]
      rfl

/-- C14: signing retries with a fresh nonce until the signer succeeds.  With the
random source a sequence of nonces (what `randv` holds after each draw), every
run of `dtls_ecdsa_create_sig_hash` that returns has drawn `m + 1` nonces, where
nonce `m` is the first for which `ecc_ecdsa_sign` reports 0; the signer was
called once after each draw, in order, each time with the same converted
private key and hash; and `point_r`, `point_s` hold what the call with nonce `m`
produced.  When such a first nonce `m` exists, every run with more than `m` loop
iterations returns exactly that. -/
theorem create_sig_hash_first_success (E : ecc_primitives)
    (dtls_prng : Nat → List Nat → Nat → List Nat) (priv0 hash0 randv0 : List Nat)
    (priv_key : List Nat) (key_size : Nat) (sign_hash : List Nat) (sign_hash_size : Nat)
    (point_r point_s : List Nat) :
    (∀ fuel draws r s calls,
      dtls_ecdsa_create_sig_hash E dtls_prng fuel priv0 hash0 randv0 priv_key key_size
          sign_hash sign_hash_size point_r point_s = some (draws, r, s, calls) →
      ∃ m, draws = m + 1 ∧
        (E.ecc_ecdsa_sign (dtls_ec_key_to_uint32 priv_key key_size priv0)
          (dtls_ec_key_to_uint32 sign_hash sign_hash_size hash0)
          (candidate dtls_prng key_size randv0 m)).1 = 0 ∧
        (∀ i, i < m →
          (E.ecc_ecdsa_sign (dtls_ec_key_to_uint32 priv_key key_size priv0)
            (dtls_ec_key_to_uint32 sign_hash sign_hash_size hash0)
            (candidate dtls_prng key_size randv0 i)).1 ≠ 0) ∧
        r = (E.ecc_ecdsa_sign (dtls_ec_key_to_uint32 priv_key key_size priv0)
          (dtls_ec_key_to_uint32 sign_hash sign_hash_size hash0)
          (candidate dtls_prng key_size randv0 m)).2.1 ∧
        s = (E.ecc_ecdsa_sign (dtls_ec_key_to_uint32 priv_key key_size priv0)
          (dtls_ec_key_to_uint32 sign_hash sign_hash_size hash0)
          (candidate dtls_prng key_size randv0 m)).2.2 ∧
        calls = (List.range (m + 1)).map
          (fun i => (dtls_ec_key_to_uint32 priv_key key_size priv0,
            dtls_ec_key_to_uint32 sign_hash sign_hash_size hash0,
            candidate dtls_prng key_size randv0 i))) ∧
    (∀ m,
      (E.ecc_ecdsa_sign (dtls_ec_key_to_uint32 priv_key key_size priv0)
        (dtls_ec_key_to_uint32 sign_hash sign_hash_size hash0)
        (candidate dtls_prng key_size randv0 m)).1 = 0 →
      (∀ i, i < m →
        (E.ecc_ecdsa_sign (dtls_ec_key_to_uint32 priv_key key_size priv0)
          (dtls_ec_key_to_uint32 sign_hash sign_hash_size hash0)
          (candidate dtls_prng key_size randv0 i)).1 ≠ 0) →
      ∀ fuel, m < fuel →
        dtls_ecdsa_create_sig_hash E dtls_prng fuel priv0 hash0 randv0 priv_key key_size
            sign_hash sign_hash_size point_r point_s
          = some (m + 1,
              (E.ecc_ecdsa_sign (dtls_ec_key_to_uint32 priv_key key_size priv0)
                (dtls_ec_key_to_uint32 sign_hash sign_hash_size hash0)
                (candidate dtls_prng key_size randv0 m)).2.1,
              (E.ecc_ecdsa_sign (dtls_ec_key_to_uint32 priv_key key_size priv0)
                (dtls_ec_key_to_uint32 sign_hash sign_hash_size hash0)
                (candidate dtls_prng key_size randv0 m)).2.2,
              (List.range (m + 1)).map
                (fun i => (dtls_ec_key_to_uint32 priv_key key_size priv0,
                  dtls_ec_key_to_uint32 sign_hash sign_hash_size hash0,
                  candidate dtls_prng key_size randv0 i)))) := by
  constructor
  · intro fuel draws r s calls h
    unfold dtls_ecdsa_create_sig_hash at h
    obtain ⟨m, -, hd, hz, hrej, hr, hs, hc⟩ := create_sig_hash_loop_sound E dtls_prng key_size
      _ _ randv0 fuel 0 point_r point_s [] draws r s calls h
    refine ⟨m, hd, hz, fun i hi => hrej i (Nat.zero_le _) hi, hr, hs, ?_⟩
    rw [hc, List.nil_append, Nat.sub_zero, List.range_eq_range']
  · intro m hok hrej fuel hf
    unfold dtls_ecdsa_create_sig_hash
    have := create_sig_hash_loop_complete E dtls_prng key_size _ _ randv0 m hok fuel 0
      point_r point_s [] (Nat.zero_le _) (by omega) (fun i _ hi => hrej i hi)
    rw [List.nil_append, Nat.sub_zero, ← List.range_eq_range'] at this
    exact this
/-- Witness for C14: the first nonce of the shifted toy source is refused by the
toy signer and the second is accepted, so two draws and two calls are made. -/
theorem create_sig_hash_first_success_witness :
    (dtls_ecdsa_create_sig_hash toy_curve (fun k buf len => toy_prng (k + 1) buf len) 5
        (List.replicate 8 0) (List.replicate 8 0) (List.replicate 8 0)
        (List.replicate 32 1) 32 (List.replicate 32 2) 32
        (List.replicate 9 0) (List.replicate 9 0)).map Prod.fst = some (1 + 1) :=
  congrArg (Option.map Prod.fst)
    ((create_sig_hash_first_success toy_curve (fun k buf len => toy_prng (k + 1) buf len)
      (List.replicate 8 0) (List.replicate 8 0) (List.replicate 8 0)
      (List.replicate 32 1) 32 (List.replicate 32 2) 32
      (List.replicate 9 0) (List.replicate 9 0)).2 1 (by decide) (fun i hi => by
        have : i = 0 := by omega
        subst this; decide) 5 (by decide))

/-! ## Theorems on the parameter objects -/

/-- C15: `dtls_security_new` yields a record with defined null algorithms.  When
the allocator returns a record (a valid address), that record ends with
`cipher = TLS_NULL_WITH_NULL_NULL`, `compression = TLS_COMPRESSION_NULL` and
every other byte zero, whatever it held before, the other records are as they
were and the pointer to it is returned; when the allocator returns nothing, the
function returns `NULL` and no record is modified. -/
theorem dtls_security_new_null_algorithms (dtls_security_malloc : lifecycle_state → Option Nat)
    (TLS_NULL_WITH_NULL_NULL TLS_COMPRESSION_NULL : Nat) (st : lifecycle_state) :
    (∀ security, dtls_security_malloc st = some security →
      security < st.securities.length →
      (dtls_security_new dtls_security_malloc TLS_NULL_WITH_NULL_NULL TLS_COMPRESSION_NULL
          st).1 = some security ∧
      (dtls_security_new dtls_security_malloc TLS_NULL_WITH_NULL_NULL TLS_COMPRESSION_NULL
          st).2.securities[security]?
        = some { compression := TLS_COMPRESSION_NULL, cipher := TLS_NULL_WITH_NULL_NULL,
                 other := List.replicate
                   (st.securities.getD security ⟨0, 0, []⟩).other.length 0 } ∧
      (∀ j, j ≠ security →
        (dtls_security_new dtls_security_malloc TLS_NULL_WITH_NULL_NULL TLS_COMPRESSION_NULL
            st).2.securities[j]? = st.securities[j]?) ∧
      (dtls_security_new dtls_security_malloc TLS_NULL_WITH_NULL_NULL TLS_COMPRESSION_NULL
          st).2.handshakes = st.handshakes) ∧
    (dtls_security_malloc st = none →
      (dtls_security_new dtls_security_malloc TLS_NULL_WITH_NULL_NULL TLS_COMPRESSION_NULL
          st).1 = none ∧
      (dtls_security_new dtls_security_malloc TLS_NULL_WITH_NULL_NULL TLS_COMPRESSION_NULL
          st).2.securities = st.securities ∧
      (dtls_security_new dtls_security_malloc TLS_NULL_WITH_NULL_NULL TLS_COMPRESSION_NULL
          st).2.handshakes = st.handshakes) := by
  constructor
  · intro security hm hlt
    unfold dtls_security_new
    rw [hm]
    refine ⟨rfl, ?_, ?_, rfl⟩
    · simp only [security_memset_zero]
      rw [List.getElem?_set_self hlt]
    · intro j hj
      simp only
      rw [List.getElem?_set_ne (Ne.symm hj)]
  · intro hm
    unfold dtls_security_new
    rw [hm]
    exact ⟨rfl, rfl, rfl⟩

/-- The record of the sample state after `dtls_security_new` handed it out:
the stale bytes are gone. -/
theorem dtls_security_new_null_algorithms_witness :
    (dtls_security_new (fun _ => some 0) 0 0 sample_lifecycle_state).2.securities[0]?
      = some { compression := 0, cipher := 0,
               other := List.replicate
                 (sample_lifecycle_state.securities.getD 0 ⟨0, 0, []⟩).other.length 0 } :=
  ((dtls_security_new_null_algorithms (fun _ => some 0) 0 0 sample_lifecycle_state).1 0 rfl
    (by decide)).2.1

/-- C16: freeing is null-safe and drains the queue first.
`dtls_handshake_free(NULL)` and `dtls_security_free(NULL)` leave the state as it
was: no queue operation, no deallocation.  For a handshake record at a valid
address, `dtls_handshake_free` first empties the record's reorder queue
(`netq_delete_all`) and then hands the record to the deallocator, exactly once,
so the queue of the freed record is empty; the other records are as they were.
`dtls_security_free` of a record hands it to the deallocator once. -/
theorem free_null_safe_and_drains (st : lifecycle_state) :
    dtls_handshake_free none st = st ∧
    dtls_security_free none st = st ∧
    (∀ h, h < st.handshakes.length →
      (dtls_handshake_free (some h) st).log
        = st.log ++ [lifecycle_event.netq_delete_all h, lifecycle_event.handshake_dealloc h] ∧
      ((dtls_handshake_free (some h) st).log.drop st.log.length).count
          (lifecycle_event.handshake_dealloc h) = 1 ∧
      (∃ r, (dtls_handshake_free (some h) st).handshakes[h]? = some r ∧
        r.reorder_queue = [] ∧ r.other = (st.handshakes.getD h ⟨[], []⟩).other) ∧
      (∀ j, j ≠ h → (dtls_handshake_free (some h) st).handshakes[j]? = st.handshakes[j]?) ∧
      (dtls_handshake_free (some h) st).securities = st.securities) ∧
    (∀ s, dtls_security_free (some s) st
      = { st with log := st.log ++ [lifecycle_event.security_dealloc s] }) := by
  refine ⟨rfl, rfl, ?_, fun s => rfl⟩
  intro h hlt
  refine ⟨?_, ?_, ?_, ?_, rfl⟩
  · simp [dtls_handshake_free, netq_delete_all]
  · simp [dtls_handshake_free, netq_delete_all]
  · refine ⟨{ (st.handshakes.getD h ⟨[], []⟩) with reorder_queue := [] }, ?_, rfl, rfl⟩
    simp only [dtls_handshake_free, netq_delete_all]
    rw [List.getElem?_set_self hlt]
  · intro j hj
    simp only [dtls_handshake_free, netq_delete_all]
    rw [List.getElem?_set_ne (Ne.symm hj)]

/-- The sample handshake record, holding two queued fragments, after
`dtls_handshake_free`: the queue was drained, then the record released. -/
theorem free_null_safe_and_drains_witness :
    (dtls_handshake_free (some 0) sample_lifecycle_state).log
      = sample_lifecycle_state.log
        ++ [lifecycle_event.netq_delete_all 0, lifecycle_event.handshake_dealloc 0] :=
  ((free_null_safe_and_drains sample_lifecycle_state).2.2.1 0 (by decide)).1

/-! ## Theorems on the result of decryption and on absent seed parts -/

theorem to_int_of_int_range (x : Int) (h0 : -2147483648 ≤ x) (h1 : x < 2147483648) :
    to_int x = x := by
  unfold to_int; omega

/-- C17: a failed tag verification is reported as an error by decrypt.  For
every call of `dtls_decrypt_params` and of `dtls_decrypt` with the mutex free in
which key setup succeeds and `dtls_ccm_decrypt_message` returns the value `r`:
if `r` is negative (and an `int`, not below `-2^31`), the call returns `r`, a
negative `int`: the sign survives the conversions `long -> size_t -> int`; and
if `0 <= r < 2^31` the call returns exactly `r`. -/
theorem decrypt_reports_failure (P : cipher_primitives) (params : dtls_ccm_params_t)
    (src : src_pointer) (length : Nat) (buf nonce key : List Nat) (keylen : Nat)
    (aad : List Nat) (la : Nat) (st : cipher_state)
    (hfree : st.cipher_context_mutex = false)
    (hkey : 0 ≤ (P.rijndael_set_key_enc_only st.cipher_context.ctx key
      (to_int (8 * (keylen : Int)))).1) :
    (∀ r : Int,
      (P.dtls_ccm_decrypt_message
        (P.rijndael_set_key_enc_only st.cipher_context.ctx key (to_int (8 * (keylen : Int)))).2
        params.tag_length params.l params.nonce (move_src src buf length) length aad la).1 = r →
      -2147483648 ≤ r → r < 2147483648 →
      ∃ out st',
        dtls_decrypt_params P params src length buf key keylen aad la st = some (r, out, st') ∧
        (r < 0 → ∀ ret out2 st2,
          dtls_decrypt_params P params src length buf key keylen aad la st
            = some (ret, out2, st2) → ret < 0)) ∧
    (∀ r : Int,
      (P.dtls_ccm_decrypt_message
        (P.rijndael_set_key_enc_only st.cipher_context.ctx key (to_int (8 * (keylen : Int)))).2
        8 3 nonce (move_src src buf length) length aad la).1 = r →
      -2147483648 ≤ r → r < 2147483648 →
      ∃ out st',
        dtls_decrypt P src length buf nonce key keylen aad la st = some (r, out, st') ∧
        (r < 0 → ∀ ret out2 st2,
          dtls_decrypt P src length buf nonce key keylen aad la st
            = some (ret, out2, st2) → ret < 0)) := by
  have main : ∀ (params : dtls_ccm_params_t) (r : Int),
      (P.dtls_ccm_decrypt_message
        (P.rijndael_set_key_enc_only st.cipher_context.ctx key (to_int (8 * (keylen : Int)))).2
        params.tag_length params.l params.nonce (move_src src buf length) length aad la).1 = r →
      -2147483648 ≤ r → r < 2147483648 →
      ∃ out st',
        dtls_decrypt_params P params src length buf key keylen aad la st = some (r, out, st') ∧
        (r < 0 → ∀ ret out2 st2,
          dtls_decrypt_params P params src length buf key keylen aad la st
            = some (ret, out2, st2) → ret < 0) := by
    intro params r hr h0 h1
    have hcall : dtls_decrypt_params P params src length buf key keylen aad la st
        = some (r,
            (P.dtls_ccm_decrypt_message
              (P.rijndael_set_key_enc_only st.cipher_context.ctx key
                (to_int (8 * (keylen : Int)))).2
              params.tag_length params.l params.nonce (move_src src buf length) length aad
              la).2,
            (dtls_cipher_context_release (dtls_ccm_decrypt P
              (set_key P (set_l (set_tag_length
                { st with cipher_context_mutex := true,
                          log := st.log ++ [cipher_event.mutex_lock] } params.tag_length)
                params.l) key (to_int (8 * (keylen : Int)))).2
              length (move_src src buf length) params.nonce aad la).2.2)) := by
      unfold dtls_decrypt_params dtls_cipher_context_get dtls_mutex_lock
      simp only [hfree, if_false, Bool.false_eq_true, set_key, set_tag_length, set_l,
        not_lt.mpr hkey, dtls_ccm_decrypt, to_int_to_size_t, hr,
        to_int_of_int_range r h0 h1]
    refine ⟨_, _, hcall, ?_⟩
    intro hneg ret out2 st2 h
    rw [hcall] at h
    simp only [Option.some.injEq, Prod.mk.injEq] at h
    omega
  exact ⟨main params, fun r hr h0 h1 => main { nonce := nonce, tag_length := 8, l := 3 } r hr
    h0 h1⟩

/-- Witness for C17: the toy cipher refuses a tampered tag with -1, and
`dtls_decrypt_params` returns -1. -/
theorem decrypt_reports_failure_witness :
    ∃ out st',
      dtls_decrypt_params toy_cipher ⟨[0, 1, 2], 4, 2⟩ src_pointer.same_as_buf 7
          [9, 23, 29, 3, 3, 3, 4, 9] [3, 1, 4, 1, 5, 9, 2, 6, 5, 3, 5, 8, 9, 7, 9, 3] 16 [7] 1
          idle_state = some (-1, out, st') :=
  have h := (decrypt_reports_failure toy_cipher ⟨[0, 1, 2], 4, 2⟩ src_pointer.same_as_buf 7
    [9, 23, 29, 3, 3, 3, 4, 9] [0, 1, 2] [3, 1, 4, 1, 5, 9, 2, 6, 5, 3, 5, 8, 9, 7, 9, 3] 16 [7] 1
    idle_state rfl (by decide)).1 (-1) (by decide) (by decide) (by decide)
  let ⟨out, st', h1, _⟩ := h
  ⟨out, st', h1⟩
theorem hmac_update_seed_zero_length (ctx : dtls_hmac_context_t) (part : List Nat) (n : Nat) :
    HMAC_UPDATE_SEED ctx (some part) 0 = HMAC_UPDATE_SEED ctx none n := by
  simp [HMAC_UPDATE_SEED, dtls_hmac_update]

theorem dtls_p_hash_loop_label_zero (H : List Nat → List Nat → List Nat)
    (key : List Nat) (keylen : Nat) (part : List Nat) (n : Nat)
    (random1 : Option (List Nat)) (random1len : Nat)
    (random2 : Option (List Nat)) (random2len : Nat) (buflen fuel : Nat) :
    ∀ A dlen len buf,
      dtls_p_hash_loop H key keylen (some part) 0 random1 random1len random2 random2len
          buflen fuel A dlen len buf
        = dtls_p_hash_loop H key keylen none n random1 random1len random2 random2len
          buflen fuel A dlen len buf := by
  induction fuel with
  | zero => intro A dlen len buf; rfl
  | succ fuel ih =>
    intro A dlen len buf
    rw [dtls_p_hash_loop, dtls_p_hash_loop]
    simp only [hmac_update_seed_zero_length _ part n, ih]

theorem dtls_p_hash_loop_random1_zero (H : List Nat → List Nat → List Nat)
    (key : List Nat) (keylen : Nat) (part : List Nat) (n : Nat)
    (label : Option (List Nat)) (labellen : Nat)
    (random2 : Option (List Nat)) (random2len : Nat) (buflen fuel : Nat) :
    ∀ A dlen len buf,
      dtls_p_hash_loop H key keylen label labellen (some part) 0 random2 random2len
          buflen fuel A dlen len buf
        = dtls_p_hash_loop H key keylen label labellen none n random2 random2len
          buflen fuel A dlen len buf := by
  induction fuel with
  | zero => intro A dlen len buf; rfl
  | succ fuel ih =>
    intro A dlen len buf
    rw [dtls_p_hash_loop, dtls_p_hash_loop]
    simp only [hmac_update_seed_zero_length _ part n, ih]

theorem dtls_p_hash_loop_random2_zero (H : List Nat → List Nat → List Nat)
    (key : List Nat) (keylen : Nat) (part : List Nat) (n : Nat)
    (label : Option (List Nat)) (labellen : Nat)
    (random1 : Option (List Nat)) (random1len : Nat) (buflen fuel : Nat) :
    ∀ A dlen len buf,
      dtls_p_hash_loop H key keylen label labellen random1 random1len (some part) 0
          buflen fuel A dlen len buf
        = dtls_p_hash_loop H key keylen label labellen random1 random1len none n
          buflen fuel A dlen len buf := by
  induction fuel with
  | zero => intro A dlen len buf; rfl
  | succ fuel ih =>
    intro A dlen len buf
    rw [dtls_p_hash_loop, dtls_p_hash_loop]
    simp only [hmac_update_seed_zero_length _ part n, ih]

/-- C18: zero-length label/seed parts are skipped.  For every key, `buflen` and
number of loop iterations, and for each of label, random1 and random2, giving
the part through a non-null pointer with length 0 makes `dtls_prf` produce what
it produces with the part absent (null pointer, any length): the part adds no
byte to what the HMAC is fed, for `A(1)` and for every output chunk, and adds
nothing to the seed. -/
theorem dtls_prf_zero_length_part (H : List Nat → List Nat → List Nat) (fuel : Nat)
    (key : List Nat) (keylen : Nat) (part : List Nat) (n : Nat)
    (label : Option (List Nat)) (labellen : Nat)
    (random1 : Option (List Nat)) (random1len : Nat)
    (random2 : Option (List Nat)) (random2len : Nat)
    (buf : List Nat) (buflen : Nat) :
    (dtls_prf H fuel key keylen (some part) 0 random1 random1len random2 random2len buf buflen
        = dtls_prf H fuel key keylen none n random1 random1len random2 random2len buf buflen ∧
      prf_seed (some part) 0 random1 random1len random2 random2len
        = prf_seed none n random1 random1len random2 random2len) ∧
    (dtls_prf H fuel key keylen label labellen (some part) 0 random2 random2len buf buflen
        = dtls_prf H fuel key keylen label labellen none n random2 random2len buf buflen ∧
      prf_seed label labellen (some part) 0 random2 random2len
        = prf_seed label labellen none n random2 random2len) ∧
    (dtls_prf H fuel key keylen label labellen random1 random1len (some part) 0 buf buflen
        = dtls_prf H fuel key keylen label labellen random1 random1len none n buf buflen ∧
      prf_seed label labellen random1 random1len (some part) 0
        = prf_seed label labellen random1 random1len none n) ∧
    (∀ ctx : dtls_hmac_context_t, HMAC_UPDATE_SEED ctx (some part) 0 = ctx) := by
  refine ⟨⟨?_, ?_⟩, ⟨?_, ?_⟩, ⟨?_, ?_⟩, ?_⟩
  · unfold dtls_prf dtls_p_hash
    simp only [hmac_update_seed_zero_length _ part n, dtls_p_hash_loop_label_zero H key keylen
      part n]
  · simp [prf_seed, seed_part]
  · unfold dtls_prf dtls_p_hash
    simp only [hmac_update_seed_zero_length _ part n, dtls_p_hash_loop_random1_zero H key keylen
      part n]
  · simp [prf_seed, seed_part]
  · unfold dtls_prf dtls_p_hash
    simp only [hmac_update_seed_zero_length _ part n, dtls_p_hash_loop_random2_zero H key keylen
      part n]
  · simp [prf_seed, seed_part]
  · intro ctx
    simp [HMAC_UPDATE_SEED, dtls_hmac_update]

end TinyDtls
